import Mathlib

/-!
A shallow embedding of the core of `meteor-reactive-store`
(`src/reactive_store.js`): a deeply nested reactive store with a DepNode
mirror tree, a recursive structural-diff engine, and batched change
notification.

Modelling choices:
* JS values are `Val`: primitives, symbols, functions (identified by an id
  and carrying their declared arity), and references `Val.ref r` into an
  explicit heap (`Heap := List Obj`), so reference identity, aliasing and
  cycles are representable.  The sentinel symbols `ReactiveStore.DELETE`
  and `ReactiveStore.CANCEL` are the distinguished symbol values
  `deleteV` and `cancelV`.
* A heap object `Obj` carries its constructor tag (`0` = plain Object,
  `1` = Array, `2` = Set, `3` = Date, `4` = RegExp, larger = other
  classes), the non-enumerable SHALLOW mark, its enumerable string-keyed
  fields in insertion order, and the payloads used by the built-in
  equality checks.
* `Tracker.Dependency` handles are dependency ids (`Nat`) allocated from a
  per-store counter; `dep.changed()` is modelled by appending the id to a
  `fired` log, and `dep.depend()` (registration of the ambient
  computation) has no observable effect on the store state that the
  claims mention, so it is not recorded.
* Mutators are modelled as pure value transformers `Val → Val` (the JS
  mutator also receives the store instance); named methods are opaque
  function ids interpreted by a parameter of `call`.
* The recursive diff `_triggerChangedDeps` is not structurally recursive
  over the heap, so it is defined with explicit fuel (`tcdF`); the public
  wrapper runs it with fuel `heap size + 1`, which is proved sufficient.
-/

namespace RStore

/-- A JS runtime value.  Non-primitive values are references into a heap. -/
inductive Val where
  | undef : Val
  | null : Val
  | num : Int → Val
  | str : String → Val
  | bool : Bool → Val
  | sym : Nat → Val
  | fn : Nat → Nat → Val
  | ref : Nat → Val
deriving DecidableEq, Repr

/-- The `ReactiveStore.DELETE` sentinel symbol. -/
def deleteV : Val := .sym 0

/-- The `ReactiveStore.CANCEL` sentinel symbol. -/
def cancelV : Val := .sym 1

/-- The global `Object` constructor function (used as the `newValue`
argument when `_setAtPath` registers a change on a parent dep node). -/
def objectCtorV : Val := .fn 0 1

/-- A heap object: constructor tag, SHALLOW mark, enumerable own string
fields in insertion order, and payloads for the built-in equality-check
types (Set elements, Date time, RegExp source/flags). -/
structure Obj where
  ctor : Nat := 0
  shallow : Bool := false
  fields : List (String × Val) := []
  setElems : List Val := []
  dateTime : Int := 0
  regexSource : String := ""
  regexFlags : List String := []
deriving DecidableEq, Repr

/-- The heap: objects addressed by their index. -/
abbrev Heap : Type := List Obj

/-- Fresh empty plain object (the `{}` literal). -/
def emptyObj : Obj := {}

/-- Look up a field in an object's enumerable fields. -/
def lookupField : List (String × Val) → String → Option Val
  | [], _ => none
  | (k, v) :: rest, key => if k = key then some v else lookupField rest key

/-- Set a field, updating it in place if present, else appending
(JS own-property insertion order). -/
def setF : List (String × Val) → String → Val → List (String × Val)
  | [], key, v => [(key, v)]
  | (k, w) :: rest, key, v =>
    if k = key then (k, v) :: rest else (k, w) :: setF rest key v

/-- Remove a field (the JS `delete` operator). -/
def removeF (fields : List (String × Val)) (key : String) : List (String × Val) :=
  fields.filter (fun e => e.1 ≠ key)

/-- Keys already emitted are skipped (helper of `dedupFirst`). -/
def dedupAux (seen : List String) : List String → List String
  | [] => []
  | k :: ks => if k ∈ seen then dedupAux seen ks else k :: dedupAux (k :: seen) ks

/-- Keys of a field list in insertion order, first occurrences kept. -/
def dedupFirst (l : List String) : List String :=
  dedupAux [] l

/-- Modelled from the spec: `isObject` from the missing `helpers` module;
per §3, a value is a plain keyed mapping iff it is a reference to a heap
object with the plain-Object constructor.  Used only through
`isTraversableB`. -/
def isPlainObject (h : Heap) (v : Val) : Bool :=
  match v with
  | .ref r => match h[r]? with
    | some o => o.ctor = 0
    | none => false
  | _ => false

/-- `ReactiveStore.isTraversable`: the value is an Object or Array and is
not marked SHALLOW. -/
def isTraversableB (h : Heap) (v : Val) : Bool :=
  match v with
  | .ref r => match h[r]? with
    | some o => (o.ctor = 0 || o.ctor = 1) && !o.shallow
    | none => false
  | _ => false

/-- Modelled from the spec: `useStrictEqualityCheck` from the missing
`helpers` module; per §4.1 and the error message in `equals`, exactly the
primitive values (number, string, boolean, undefined, null, symbol) and
functions are compared by strict identity, i.e. every non-reference. -/
def useStrictEqualityCheck (v : Val) : Bool :=
  match v with
  | .ref _ => false
  | _ => true

/-- Read `obj[key]` on the object at ref `r` (JS: `undefined` if absent). -/
def objRead (h : Heap) (r : Nat) (key : String) : Val :=
  match h[r]? with
  | some o => (lookupField o.fields key).getD .undef
  | none => Val.undef

/-- `propertyIsEnumerable` on the object at ref `r`. -/
def enumF (h : Heap) (r : Nat) (key : String) : Bool :=
  match h[r]? with
  | some o => (lookupField o.fields key).isSome
  | none => false

/-- Read `v[key]` for an arbitrary value (defined reads only occur behind
traversability guards in the source). -/
def readVal (h : Heap) (v : Val) (key : String) : Val :=
  match v with
  | .ref r => objRead h r key
  | _ => Val.undef

/-- `v.propertyIsEnumerable(key)` for an arbitrary value. -/
def enumVal (h : Heap) (v : Val) (key : String) : Bool :=
  match v with
  | .ref r => enumF h r key
  | _ => false

/-- `ReactiveStore._valueAtKey`: `obj[key]` if `obj` is traversable and
`key` is an enumerable property within it, else the DELETE sentinel. -/
def valueAtKey (h : Heap) (v : Val) (key : String) : Val :=
  if isTraversableB h v && enumVal h v key then readVal h v key else deleteV

/-- `Object.keys` of a value known to be a traversable reference. -/
def keysOfVal (h : Heap) (v : Val) : List String :=
  match v with
  | .ref r => match h[r]? with
    | some o => dedupFirst (o.fields.map (·.1))
    | none => []
  | _ => []

/-- The constructor of a value's heap object (for the `constructor`
comparisons in the diff engine). -/
def ctorOfVal (h : Heap) (v : Val) : Option Nat :=
  match v with
  | .ref r => (h[r]?).map (·.ctor)
  | _ => none

/-- Overwrite `h[r].fields[key]`. -/
def setField (h : Heap) (r : Nat) (key : String) (v : Val) : Heap :=
  match h[r]? with
  | some o => h.set r { o with fields := setF o.fields key v }
  | none => h

/-- Delete `h[r].fields[key]`. -/
def removeField (h : Heap) (r : Nat) (key : String) : Heap :=
  match h[r]? with
  | some o => h.set r { o with fields := removeF o.fields key }
  | none => h

/-- Allocate a new object, returning the extended heap and the new ref. -/
def allocObj (h : Heap) (o : Obj) : Heap × Nat :=
  (h ++ [o], h.length)

/-- Add a dependency id to a pending set kept as an insertion-ordered
duplicate-free list (model of the JS `Set` of changed deps). -/
def addPending (d : Nat) (l : List Nat) : List Nat :=
  if d ∈ l then l else l ++ [d]

/-- Membership test of a value in the per-call seen set of traversable
references (JS `Set.has`; only references are ever added). -/
def seenHas (seen : List Nat) (v : Val) : Bool :=
  match v with
  | .ref r => r ∈ seen
  | _ => false

/-- Add a traversable reference to the per-call seen set (JS `Set.add`). -/
def seenAdd (seen : List Nat) (v : Val) : List Nat :=
  match v with
  | .ref r => if r ∈ seen then seen else r :: seen
  | _ => seen

/-- The scalar (non-recursive) part of a DepNode: the three kinds of
interest handle plus the cached existence bit and the active equality
dep.  `eqDepMap` is `some` exactly when the JS `eqDepMap` Map has been
created. -/
structure DepCore where
  valueDep : Option Nat := none
  existsDep : Option Nat := none
  exists_ : Bool := false
  eqDepMap : Option (List (Val × Nat)) := none
  activeEqDep : Option Nat := none
deriving DecidableEq, Repr

/-- A dependency node: scalar interests plus the `subDeps` child map
(keyed by path segment, insertion order). -/
inductive DepNode where
  | mk : DepCore → List (String × DepNode) → DepNode

/-- The scalar part of a DepNode. -/
def DepNode.core : DepNode → DepCore
  | .mk c _ => c

/-- The `subDeps` child map of a DepNode. -/
def DepNode.subDeps : DepNode → List (String × DepNode)
  | .mk _ s => s

/-- A freshly created DepNode (`ensureDepNode`'s initializer). -/
def emptyDepNode : DepNode := .mk {} []

/-- Look up a child DepNode by key. -/
def lookupDep : List (String × DepNode) → String → Option DepNode
  | [], _ => none
  | (k, d) :: rest, key => if k = key then some d else lookupDep rest key

/-- Replace the child DepNode at a key (position preserved; keys of a
`subDeps` object are unique, so the first occurrence is the entry). -/
def updateDep : List (String × DepNode) → String → DepNode → List (String × DepNode)
  | [], _, _ => []
  | (k, x) :: rest, key, d =>
    if k = key then (k, d) :: rest else (k, x) :: updateDep rest key d

/-- Look up a Map entry keyed by a comparison value (`eqDepMap.get`). -/
def lookupVal : List (Val × Nat) → Val → Option Nat
  | [], _ => none
  | (k, d) :: rest, key => if k = key then some d else lookupVal rest key

/-- `ReactiveStore.prototype._registerChange` on the scalar part of a
DepNode: queue the value dep, flip-and-queue the existence dep when
existence changed, and swap-and-queue the equality deps. -/
def registerChangeCore (c : DepCore) (newValue : Val) (pending : List Nat) :
    DepCore × List Nat :=
  let unset := newValue = deleteV
  let pending := match c.valueDep with
    | some d => addPending d pending
    | none => pending
  let step2 : DepCore × List Nat :=
    match c.existsDep with
    | some ed =>
      let existenceChanged := if c.exists_ then unset else !unset
      if existenceChanged then
        ({ c with exists_ := !c.exists_ }, addPending ed pending)
      else (c, pending)
    | none => (c, pending)
  let c := step2.1
  let pending := step2.2
  match c.eqDepMap with
  | some m =>
    let eqDep := lookupVal m (if unset then .undef else newValue)
    if eqDep ≠ c.activeEqDep then
      let pending := match eqDep with
        | some d => addPending d pending
        | none => pending
      let pending := match c.activeEqDep with
        | some d => addPending d pending
        | none => pending
      ({ c with activeEqDep := eqDep }, pending)
    else (c, pending)
  | none => (c, pending)

/-- `_registerChange` on an optional DepNode (the JS guard `if (!depNode)
return`). -/
def _registerChange (dn : Option DepNode) (newValue : Val) (pending : List Nat) :
    Option DepNode × List Nat :=
  match dn with
  | none => (none, pending)
  | some (.mk c subs) =>
    let r := registerChangeCore c newValue pending
    (some (.mk r.1 subs), r.2)

/-- The `for (const key of Object.keys(deps))` loop of `_triggerAllDeps`:
register a change for every dep node keyed in the map, and recurse into a
key enumerable in `keyFilter` (with the recursive invocation's
traversability/seen guard inlined at the recursion site). -/
def tadGo (h : Heap) : List (String × DepNode) → Val → Val → List Nat → List Nat →
    List (String × DepNode) × List Nat × List Nat
  | [], _, _, seen, pending => ([], seen, pending)
  | (k, .mk c s) :: rest, keyFilter, curValue, seen, pending =>
    let cvk := valueAtKey h curValue k
    let rc := registerChangeCore c cvk pending
    if enumVal h keyFilter k then
      let kfSub := readVal h keyFilter k
      let sub :=
        if isTraversableB h kfSub then
          if seenHas seen kfSub then (s, seen, rc.2)
          else tadGo h s kfSub cvk (seenAdd seen kfSub) rc.2
        else (s, seen, rc.2)
      let rest2 := tadGo h rest keyFilter curValue sub.2.1 sub.2.2
      ((k, .mk rc.1 sub.1) :: rest2.1, rest2.2)
    else
      let rest2 := tadGo h rest keyFilter curValue seen rc.2
      ((k, .mk rc.1 s) :: rest2.1, rest2.2)

/-- `ReactiveStore.prototype._triggerAllDeps`: recursively traverse `deps`
in tandem with `keyFilter`, registering a change for every dep node whose
key exists in `deps`, recursing only into keys enumerable in `keyFilter`,
guarded per top-level invocation by a seen set of traversable references.
Returns the updated subDeps map, the seen set and the pending set. -/
def _triggerAllDeps (h : Heap) (deps : Option (List (String × DepNode)))
    (keyFilter curValue : Val) (seen pending : List Nat) :
    Option (List (String × DepNode)) × List Nat × List Nat :=
  match deps with
  | none => (none, seen, pending)
  | some subs =>
    if isTraversableB h keyFilter then
      if seenHas seen keyFilter then (some subs, seen, pending)
      else
        let r := tadGo h subs keyFilter curValue (seenAdd seen keyFilter) pending
        (some r.1, r.2.1, r.2.2)
    else (some subs, seen, pending)

/-- Modelled from the spec: `setsAreEqual` from the missing `helpers`
module; per §2 the built-in Set entry compares set-like values by
membership. -/
def setsAreEqual (h : Heap) (oldV newV : Val) : Bool :=
  match oldV, newV with
  | .ref r1, .ref r2 =>
    match h[r1]?, h[r2]? with
    | some o1, some o2 =>
      o2.ctor = 2 && o1.setElems.length = o2.setElems.length
        && o1.setElems.all (fun x => decide (x ∈ o2.setElems))
    | _, _ => false
  | _, _ => false

/-- The built-in Date equality check of `ReactiveStore.eqCheckMap`. -/
def dateEq (h : Heap) (oldV newV : Val) : Bool :=
  match oldV, newV with
  | .ref r1, .ref r2 =>
    match h[r1]?, h[r2]? with
    | some o1, some o2 => o2.ctor = 3 && o1.dateTime = o2.dateTime
    | _, _ => false
  | _, _ => false

/-- The built-in RegExp equality check of `ReactiveStore.eqCheckMap`. -/
def regexEq (h : Heap) (oldV newV : Val) : Bool :=
  match oldV, newV with
  | .ref r1, .ref r2 =>
    match h[r1]?, h[r2]? with
    | some o1, some o2 =>
      o2.ctor = 4 && o1.regexSource = o2.regexSource
        && o1.regexFlags.all (fun x => decide (x ∈ o2.regexFlags))
        && o2.regexFlags.all (fun x => decide (x ∈ o1.regexFlags))
    | _, _ => false
  | _, _ => false

/-- `ReactiveStore.eqCheckMap.get(oldValue.constructor)` applied to the
pair, for the initial (built-in) registry: Set, Date and RegExp. -/
def eqCheckApply (h : Heap) (oldV newV : Val) : Option Bool :=
  match ctorOfVal h oldV with
  | some 2 => some (setsAreEqual h oldV newV)
  | some 3 => some (dateEq h oldV newV)
  | some 4 => some (regexEq h oldV newV)
  | _ => none

/-- The `for (const key of newValueKeys)` loop of `_triggerChangedDeps`:
a key absent from `keySet` whose new value is not `undefined` marks a
change (breaking out without adding the key when there are no subDeps);
otherwise the key is added to the key set. -/
def scanNewKeys (h : Heap) (newValue : Val) (hasSubs : Bool) :
    List String → Bool → List String → Bool × List String
  | [], changed, keySet => (changed, keySet)
  | k :: ks, changed, keySet =>
    if k ∈ keySet then scanNewKeys h newValue hasSubs ks changed keySet
    else if changed = false ∧ readVal h newValue k ≠ .undef then
      if hasSubs then scanNewKeys h newValue hasSubs ks true (keySet ++ [k])
      else (true, keySet)
    else scanNewKeys h newValue hasSubs ks changed (keySet ++ [k])

/-- Rebuild an optional DepNode with an updated subDeps map. -/
def rebuildDep (dn : Option DepNode) (subs : Option (List (String × DepNode))) :
    Option DepNode :=
  match dn, subs with
  | some (.mk c _), some s => some (.mk c s)
  | some d, none => some d
  | none, _ => none

/-- The tail of `_triggerChangedDeps`: sweep all deep dependencies present
in `newValue` when it has not been traversed, then register this node's
own change when `changed`. -/
def tcdFinish (h : Heap) (dn : Option DepNode)
    (subs : Option (List (String × DepNode))) (newValue : Val)
    (changed nvt : Bool) (seen pending : List Nat) :
    Bool × Option DepNode × List Nat × List Nat :=
  let dn0 := rebuildDep dn subs
  let step1 : Option DepNode × List Nat :=
    if nvt then (dn0, pending)
    else
      match dn0 with
      | none => (none, pending)
      | some (.mk c s) =>
        let r := _triggerAllDeps h (some s) newValue newValue [] pending
        (some (.mk c (r.1.getD s)), r.2.2)
  if changed then
    let r := _registerChange step1.1 newValue step1.2
    (changed, r.1, seen, r.2)
  else (changed, step1.1, seen, step1.2)

/-- The `for (const key of keySet)` loop of `_triggerChangedDeps`:
recurse (through `f`, the diff at the remaining fuel) into a key when no
change is known yet or when that key has a registered sub-dependency. -/
def tcdKeysGo
    (f : Option DepNode → Val → Val → List Nat → List Nat →
      Option (Bool × Option DepNode × List Nat × List Nat))
    (h : Heap) (oldValue newValue : Val) :
    Option (List (String × DepNode)) → List String → Bool → List Nat → List Nat →
    Option (Bool × Option (List (String × DepNode)) × List Nat × List Nat)
  | subs, [], changed, seen, pending => some (changed, subs, seen, pending)
  | subs, k :: ks, changed, seen, pending =>
    let sdn := match subs with
      | some ss => lookupDep ss k
      | none => none
    if !changed || sdn.isSome then
      match f sdn (valueAtKey h oldValue k) (valueAtKey h newValue k) seen pending with
      | none => none
      | some (vck, sdn2, seen2, pending2) =>
        let subs2 := match sdn2, subs with
          | some d2, some ss => some (updateDep ss k d2)
          | _, _ => subs
        tcdKeysGo f h oldValue newValue subs2 ks (changed || vck) seen2 pending2
    else tcdKeysGo f h oldValue newValue subs ks changed seen pending

/-- `ReactiveStore.prototype._triggerChangedDeps` with explicit fuel:
determine whether `oldValue` changed into `newValue`, recursively
triggering deep dependency changes, with the per-invocation seen set
guarding against cyclical structures.  Returns `none` only when the fuel
runs out.  The result is `(changed, updated dep node, seen, pending)`. -/
def tcdF : Nat → Heap → Option DepNode → Val → Val → List Nat → List Nat →
    Option (Bool × Option DepNode × List Nat × List Nat)
  | 0, _, _, _, _, _, _ => none
  | fuel + 1, h, dn, oldValue, newValue, seen, pending =>
    if useStrictEqualityCheck oldValue then
      some (tcdFinish h dn (dn.map DepNode.subDeps) newValue
        (decide (oldValue ≠ newValue)) false seen pending)
    else if oldValue = newValue then
      some (tcdFinish h dn (dn.map DepNode.subDeps) newValue true false seen pending)
    else if isTraversableB h oldValue then
      if seenHas seen oldValue || seenHas seen newValue then
        some (tcdFinish h dn (dn.map DepNode.subDeps) newValue true false seen pending)
      else
        let seen1 := seenAdd seen oldValue
        let keySet0 := keysOfVal h oldValue
        let hasSubs := dn.isSome
        if isTraversableB h newValue then
          let seen2 := seenAdd seen1 newValue
          let newKeys := keysOfVal h newValue
          let changed0 := decide (ctorOfVal h oldValue ≠ ctorOfVal h newValue)
            || decide (keySet0.length ≠ newKeys.length)
          let scan := if !changed0 || hasSubs then
              scanNewKeys h newValue hasSubs newKeys changed0 keySet0
            else (changed0, keySet0)
          match (if !scan.1 || hasSubs then
              tcdKeysGo (tcdF fuel h) h oldValue newValue
                (dn.map DepNode.subDeps) scan.2 scan.1 seen2 pending
            else some (scan.1, dn.map DepNode.subDeps, seen2, pending)) with
          | none => none
          | some (changed2, subs2, seen3, pending2) =>
            some (tcdFinish h dn subs2 newValue changed2 true seen3 pending2)
        else
          match (if hasSubs then
              tcdKeysGo (tcdF fuel h) h oldValue newValue
                (dn.map DepNode.subDeps) keySet0 true seen1 pending
            else some (true, dn.map DepNode.subDeps, seen1, pending)) with
          | none => none
          | some (changed2, subs2, seen2, pending2) =>
            some (tcdFinish h dn subs2 newValue changed2 false seen2 pending2)
    else
      let changed := match eqCheckApply h oldValue newValue with
        | none => true
        | some b => !b
      some (tcdFinish h dn (dn.map DepNode.subDeps) newValue changed false seen pending)

/-- `_triggerChangedDeps` as called by the write path: fuel `heap size + 1`
(proved sufficient below), a fresh seen set, and the conservative
`changed` verdict as the (unreachable) out-of-fuel default. -/
def _triggerChangedDeps (h : Heap) (dn : Option DepNode)
    (oldValue newValue : Val) (pending : List Nat) :
    Bool × Option DepNode × List Nat :=
  match tcdF (h.length + 1) h dn oldValue newValue [] pending with
  | some (c, d, _, p) => (c, d, p)
  | none => (true, dn, pending)

/-- Split a character list on `'.'` (helper of `splitDot`). -/
def splitDotAux (cur : List Char) : List Char → List String
  | [] => [String.mk cur.reverse]
  | c :: cs =>
    if c = '.' then String.mk cur.reverse :: splitDotAux [] cs
    else splitDotAux (c :: cur) cs

/-- `path.split('.')`: the dot-tokenization of a path string (the empty
string yields `[""]`, exactly as in JS). -/
def splitDot (s : String) : List String :=
  splitDotAux [] s.data

/-- Per-path metadata (`_pathData` entries): the tokenized path and the
optional mutator.  The JS mutator also receives the store instance; it is
modelled as a pure value transformer. -/
structure PathData where
  tokens : List String
  mutate : Option (Val → Val) := none

/-- Look up a `_pathData` entry. -/
def lookupPD : List (String × PathData) → String → Option PathData
  | [], _ => none
  | (k, v) :: rest, key => if k = key then some v else lookupPD rest key

/-- Look up a named method (methods are opaque function ids, interpreted
by the `interp` argument of `call`). -/
def lookupMethod : List (String × Nat) → String → Option Nat
  | [], _ => none
  | (k, v) :: rest, key => if k = key then some v else lookupMethod rest key

/-- The store state: heap and root value, the cached `_isTraversable`
flag, the ROOT dep node (`this[ReactiveStore.ROOT]`), the batch
coordinator state (`_changeData`: pending dep set and operation counter),
a log of deps on which `changed()` has been fired, the path cache, the
`_noMutate` flag, the dependency-id allocator, the named-method registry
and the initial-data value used by `reset` (the JS `_initData` thunk is
modelled by the value it returns). -/
structure Store where
  heap : Heap := []
  data : Val := .undef
  _isTraversable : Bool := false
  rootNode : DepNode := emptyDepNode
  pending : List Nat := []
  opCount : Nat := 0
  fired : List Nat := []
  _pathData : List (String × PathData) := []
  _noMutate : Bool := false
  nextDep : Nat := 0
  _methods : List (String × Nat) := []
  _initData : Val := Val.undef

/-- `_getPathData` with the default `init = true`: return the cached
entry for a path, creating `{ tokens: path.split('.') }` when absent. -/
def _getPathData (s : Store) (path : String) : Store × PathData :=
  match lookupPD s._pathData path with
  | some pd => (s, pd)
  | none =>
    let pd : PathData := { tokens := splitDot path }
    ({ s with _pathData := s._pathData ++ [(path, pd)] }, pd)

/-- The value/existence walk of `_findProperty`: step through tokens while
the current value is traversable and the token is an enumerable property;
once a token is missing the value becomes `undefined` and existence
`false`. -/
def pureWalk (h : Heap) : Val → List String → Val × Bool
  | v, [] => (v, true)
  | v, t :: ts =>
    if isTraversableB h v && enumVal h v t then pureWalk h (readVal h v t) ts
    else (.undef, false)

/-- A chain of freshly created DepNodes for the given tokens
(`ensureDepNode` applied at each remaining segment of a reactive walk). -/
def freshChain : List String → DepNode
  | [] => emptyDepNode
  | t :: ts => .mk {} [(t, freshChain ts)]

/-- Ensure DepNodes exist along a token path (the reactive side of
`_findProperty`'s walk). -/
def ensureSubPath (subs : List (String × DepNode)) : List String → List (String × DepNode)
  | [] => subs
  | t :: ts =>
    match lookupDep subs t with
    | some (.mk c s) => updateDep subs t (.mk c (ensureSubPath s ts))
    | none => subs ++ [(t, freshChain ts)]

/-- The DepNode reached by following a token path. -/
def nodeAt (dn : DepNode) : List String → Option DepNode
  | [] => some dn
  | t :: ts =>
    match lookupDep dn.subDeps t with
    | some d => nodeAt d ts
    | none => none

/-- Replace the DepNode at an existing token path by applying `f` to it
(no-op when the path does not exist in the tree). -/
def modifyNodeAt (dn : DepNode) : List String → (DepNode → DepNode) → DepNode
  | [], f => f dn
  | t :: ts, f =>
    match dn with
    | .mk c subs =>
      match lookupDep subs t with
      | some d => .mk c (updateDep subs t (modifyNodeAt d ts f))
      | none => dn

/-- The number of consecutive tokens from the start of the list that have
DepNodes in the tree (how far `_setAtPath`'s `deps` walk reaches before
becoming null). -/
def chainLen : List (String × DepNode) → List String → Nat
  | _, [] => 0
  | subs, t :: ts =>
    match lookupDep subs t with
    | some d => 1 + chainLen d.subDeps ts
    | none => 0

/-- The token paths of the `parentDepNodes` collected by `_setAtPath`:
the root (empty path) plus every reached parent prefix, root first. -/
def prefixList (tokens : List String) (cl : Nat) : List (List String) :=
  (List.range (cl + 1)).map (fun i => tokens.take i)

/-- The tokens `get`/`has`/`equals` walk for a path (the cached tokens
when a `_pathData` entry exists, else a fresh split). -/
def tokensOf (s : Store) (path : Option String) : List String :=
  match path with
  | none => []
  | some p =>
    match lookupPD s._pathData p with
    | some pd => pd.tokens
    | none => splitDot p

/-- `ReactiveStore.prototype._findProperty`: traverse the data on the
path, creating dep nodes along the way when a computation is being
tracked.  Returns the updated store, the value and its existence. -/
def _findProperty (s : Store) (tracked : Bool) (path : Option String) :
    Store × Val × Bool :=
  match path with
  | none => (s, s.data, true)
  | some p =>
    let g := _getPathData s p
    let w := pureWalk g.1.heap g.1.data g.2.tokens
    let rn := DepNode.mk g.1.rootNode.core (ensureSubPath g.1.rootNode.subDeps g.2.tokens)
    let s2 := if tracked then { g.1 with rootNode := rn } else g.1
    (s2, w.1, w.2)

/-- `ReactiveStore.prototype.get`: find the value at the path and, when a
computation is being tracked, ensure the node's `valueDep` exists and
depend on it. -/
def get (s : Store) (tracked : Bool) (path : Option String) : Store × Val :=
  let f := _findProperty s tracked path
  let s1 := f.1
  if tracked then
    let tks := tokensOf s1 path
    match nodeAt s1.rootNode tks with
    | some n =>
      match n.core.valueDep with
      | some _ => (s1, f.2.1)
      | none =>
        let d := s1.nextDep
        let rn := modifyNodeAt s1.rootNode tks
          (fun nd => .mk { nd.core with valueDep := some d } nd.subDeps)
        ({ s1 with rootNode := rn, nextDep := d + 1 }, f.2.1)
    | none => (s1, f.2.1)
  else (s1, f.2.1)

/-- `ReactiveStore.prototype.has`: find the existence of the path and,
when tracked, ensure the node's `existsDep` exists (caching the current
existence on creation) and depend on it. -/
def has (s : Store) (tracked : Bool) (p : String) : Store × Bool :=
  let f := _findProperty s tracked (some p)
  let s1 := f.1
  if tracked then
    let tks := tokensOf s1 (some p)
    match nodeAt s1.rootNode tks with
    | some n =>
      match n.core.existsDep with
      | some _ => (s1, f.2.2)
      | none =>
        let d := s1.nextDep
        let rn := modifyNodeAt s1.rootNode tks
          (fun nd => .mk { nd.core with existsDep := some d, exists_ := f.2.2 } nd.subDeps)
        ({ s1 with rootNode := rn, nextDep := d + 1 }, f.2.2)
    | none => (s1, f.2.2)
  else (s1, f.2.2)

/-- `ReactiveStore.prototype.equals`: throw (before any state change)
unless the comparison value can be strictly compared; otherwise find the
value at the path, compare, and when tracked ensure the equality dep
keyed by the comparison value (marking it active when currently equal)
and depend on it. -/
def equals (s : Store) (tracked : Bool) (path : Option String) (value : Val) :
    Store × Except String Bool :=
  if useStrictEqualityCheck value = false then
    (s, .error "ReactiveStore: Only primitive values (number, string, boolean, undefined, null, symbol) and functions can be registered as equality dependencies.")
  else
    let f := _findProperty s tracked path
    let s1 := f.1
    let isEqual := f.2.1 = value
    if tracked then
      let tks := tokensOf s1 path
      match nodeAt s1.rootNode tks with
      | some n =>
        let c := n.core
        let m := c.eqDepMap.getD []
        match lookupVal m value with
        | some ed =>
          let upd := fun (nd : DepNode) =>
            let c2 := { nd.core with eqDepMap := some m, activeEqDep := if isEqual then some ed else nd.core.activeEqDep }
            DepNode.mk c2 nd.subDeps
          let rn := modifyNodeAt s1.rootNode tks upd
          ({ s1 with rootNode := rn }, .ok isEqual)
        | none =>
          let d := s1.nextDep
          let upd := fun (nd : DepNode) =>
            let c2 := { nd.core with eqDepMap := some (m ++ [(value, d)]), activeEqDep := if isEqual then some d else nd.core.activeEqDep }
            DepNode.mk c2 nd.subDeps
          let rn := modifyNodeAt s1.rootNode tks upd
          ({ s1 with rootNode := rn, nextDep := d + 1 }, .ok isEqual)
      | none => (s1, .ok isEqual)
    else (s1, .ok isEqual)

/-- A traversable reference, or `none` (the write walk's test
`ReactiveStore.isTraversable(search[token])`). -/
def travRef (h : Heap) (v : Val) : Option Nat :=
  match v with
  | .ref r => if isTraversableB h (.ref r) then some r else none
  | _ => none

/-- Split a token list into its parent tokens and last token. -/
def splitLast : List String → Option (List String × String)
  | [] => none
  | [t] => some ([], t)
  | t :: ts => (splitLast ts).map (fun p => (t :: p.1, p.2))

/-- The parent-token walk of `_setAtPath`: step into each parent,
replacing a non-traversable child with a fresh `{}` (aborting instead
when unsetting).  Returns the updated heap, the final parent ref, and the
list of `(ref, token)` edges followed. -/
def walkParents (h : Heap) (r : Nat) (unset : Bool) :
    List String → Option (Heap × Nat × List (Nat × String))
  | [] => some (h, r, [])
  | t :: ts =>
    match travRef h (objRead h r t) with
    | some r2 =>
      (walkParents h r2 unset ts).map (fun q => (q.1, q.2.1, (r, t) :: q.2.2))
    | none =>
      if unset then none
      else
        let al := allocObj h emptyObj
        let h2 := setField al.1 r t (.ref al.2)
        (walkParents h2 al.2 unset ts).map (fun q => (q.1, q.2.1, (r, t) :: q.2.2))

/-- Register a change (with the `Object` constructor as new value) on
every collected parent DepNode, root first (`_setAtPath`'s final loop
over `parentDepNodes`). -/
def regParents (root : DepNode) (pending : List Nat) :
    List (List String) → DepNode × List Nat
  | [] => (root, pending)
  | q :: qs =>
    match nodeAt root q with
    | some n =>
      let rc := registerChangeCore n.core objectCtorV pending
      regParents (modifyNodeAt root q (fun nd => .mk rc.1 nd.subDeps)) rc.2 qs
    | none => regParents root pending qs

/-- The root coercion of `_setAtPath`: replace a non-traversable root
with a fresh `{}`. -/
def coerceRoot (s : Store) : Store :=
  let al := allocObj s.heap emptyObj
  { s with heap := al.1, data := .ref al.2, _isTraversable := true }

/-- The body of `_setAtPath` after the mutator step, on the path's
tokens: cancel on CANCEL, coerce a non-traversable root (aborting an
unset), walk the parent tokens, perform the final set/unset with its
dep-triggering, and register a change on every traversed parent DepNode
when changed.  The second component is the final `changed` verdict
(false when the operation was cancelled, aborted or a no-op). -/
def _setAtPathVal (s : Store) (tokens : List String) (value : Val) : Store × Bool :=
  if value = cancelV then (s, false)
  else
    let unset := value = deleteV
    match (if s._isTraversable then some s
           else if unset then none else some (coerceRoot s)) with
    | none => (s, false)
    | some s =>
      match s.data, splitLast tokens with
      | .ref rRoot, some (parents, lastT) =>
        match walkParents s.heap rRoot unset parents with
        | none => (s, false)
        | some (h1, pRef, _edges) =>
          let root := s.rootNode
          let cl := chainLen root.subDeps parents
          if unset then
            if enumF h1 pRef lastT then
              let oldValue := objRead h1 pRef lastT
              let h2 := removeField h1 pRef lastT
              let st : DepNode × List Nat :=
                match nodeAt root tokens with
                | some (.mk c subsF) =>
                  let ta := _triggerAllDeps h2 (some subsF) oldValue value [] s.pending
                  let rc := _registerChange (some (.mk c (ta.1.getD subsF))) value ta.2.2
                  (modifyNodeAt root tokens (fun _ => rc.1.getD (.mk c subsF)), rc.2)
                | none => (root, s.pending)
              let reg := regParents st.1 st.2 (prefixList tokens cl)
              ({ s with heap := h2, rootNode := reg.1, pending := reg.2 }, true)
            else ({ s with heap := h1 }, false)
          else
            let oldValue := objRead h1 pRef lastT
            let h2 := setField h1 pRef lastT value
            let tr := _triggerChangedDeps h2 (nodeAt root tokens) oldValue value s.pending
            let root1 := match tr.2.1 with
              | some d2 => modifyNodeAt root tokens (fun _ => d2)
              | none => root
            if tr.1 then
              let reg := regParents root1 tr.2.2 (prefixList tokens cl)
              ({ s with heap := h2, rootNode := reg.1, pending := reg.2 }, true)
            else ({ s with heap := h2, rootNode := root1, pending := tr.2.2 }, false)
      | _, _ => (s, false)

/-- `ReactiveStore.prototype._setAtPath`, additionally returning the
`changed` verdict of the final-token step: look up the path data, apply
the path's mutator (unless `_noMutate`), then run the body. -/
def _setAtPathCore (s : Store) (path : String) (value : Val) : Store × Bool :=
  let g := _getPathData s path
  let value := if g.1._noMutate = false then
      match g.2.mutate with
      | some m => m value
      | none => value
    else value
  _setAtPathVal g.1 g.2.tokens value

/-- `_setAtPath` as used by the public mutations. -/
def _setAtPath (s : Store) (path : String) (value : Val) : Store :=
  (_setAtPathCore s path value).1

/-- `ReactiveStore.prototype._watchChanges`: increment the operation
counter, run the operation, decrement, and once no operations remain
fire every pending dep and clear the set. -/
def _watchChanges (op : Store → Store) (s : Store) : Store :=
  let s1 := { s with opCount := s.opCount + 1 }
  let s2 := op s1
  let s3 := { s2 with opCount := s2.opCount - 1 }
  if s3.opCount = 0 ∧ s3.pending ≠ [] then
    { s3 with fired := s3.fired ++ s3.pending, pending := [] }
  else s3

/-- `ReactiveStore.prototype.set`: replace the root value, recompute the
traversability cache, and diff old against new at the ROOT dep node
inside a watched operation. -/
def set (s : Store) (value : Val) : Store :=
  let oldValue := s.data
  let s1 := { s with _isTraversable := isTraversableB s.heap value, data := value }
  _watchChanges (fun st =>
    let tr := _triggerChangedDeps st.heap (some st.rootNode) oldValue value st.pending
    { st with rootNode := tr.2.1.getD st.rootNode, pending := tr.2.2 }) s1

/-- `ReactiveStore.prototype.assign` in its two-parameter form (a single
path/value pair). -/
def assign (s : Store) (path : String) (value : Val) : Store :=
  _watchChanges (fun st => _setAtPath st path value) s

/-- `ReactiveStore.prototype.assign` in its one-parameter form (a
path → value map, entries in order). -/
def assignMany (s : Store) (pvs : List (String × Val)) : Store :=
  _watchChanges (fun st => pvs.foldl (fun a e => _setAtPath a e.1 e.2) st) s

/-- `ReactiveStore.prototype.delete`: assign DELETE at each path inside a
watched operation, only when the root is currently traversable. -/
def delete (s : Store) (paths : List String) : Store :=
  if s._isTraversable then
    _watchChanges (fun st => paths.foldl (fun a p => _setAtPath a p deleteV) st) s
  else s

/-- `new this.data.constructor()`: a fresh empty instance with the same
constructor tag as the current root (an empty wrapper object when the
root is not a reference; the claims only exercise this behind the
traversability guard of `clear`). -/
def newInstanceOf (h : Heap) (v : Val) : Heap × Val :=
  match v with
  | .ref r =>
    match h[r]? with
    | some o =>
      let al := allocObj h { ctor := o.ctor }
      (al.1, .ref al.2)
    | none =>
      let al := allocObj h emptyObj
      (al.1, .ref al.2)
  | _ =>
    let al := allocObj h { ctor := 5 }
    (al.1, .ref al.2)

/-- `ReactiveStore.prototype.clear`: set the root to a fresh instance of
its current constructor when traversable, else to `undefined`. -/
def clear (s : Store) : Store :=
  if s._isTraversable then
    let ni := newInstanceOf s.heap s.data
    set { s with heap := ni.1 } ni.2
  else set s Val.undef

/-- `ReactiveStore.prototype.reset`: set the root back to the initial
data value. -/
def reset (s : Store) : Store :=
  set s s._initData

/-- `ReactiveStore.prototype.call`: invoke a named method (throwing,
before anything else, when the name is not registered).  Method bodies
are interpreted by `interp`. -/
def call (s : Store) (interp : Nat → Store → List Val → Store × Val)
    (methodName : String) (params : List Val) : Store × Except String Val :=
  match lookupMethod s._methods methodName with
  | none => (s, .error ("Method " ++ methodName ++ " is not defined."))
  | some fid =>
    let r := interp fid s params
    (r.1, .ok r.2)

/-- Is the value a JS function? (`v instanceof Function`). -/
def isFn : Val → Bool
  | .fn _ _ => true
  | _ => false

/-- The declared arity of a function value (`fn.length`). -/
def fnArity : Val → Nat
  | .fn _ a => a
  | _ => 0

/-- The id of a function value. -/
def fnId : Val → Nat
  | .fn i _ => i
  | _ => 0

/-- Update or append an entry of the equality-check registry. -/
def setEqCheck : List (Nat × Val) → Nat → Val → List (Nat × Val)
  | [], key, v => [(key, v)]
  | (k, w) :: rest, key, v =>
    if k = key then (k, v) :: rest else (k, w) :: setEqCheck rest key v

/-- `ReactiveStore.addEqualityCheck` over the registry state: throw
(leaving the registry unchanged) unless the constructor and check are
functions and the check takes exactly two parameters. -/
def addEqualityCheck (m : List (Nat × Val)) (ctorArg isEqual : Val) :
    List (Nat × Val) × Except String Unit :=
  if isFn ctorArg = false ∨ isFn isEqual = false ∨ fnArity isEqual ≠ 2 then
    (m, .error "You must provide a valid constructor function/class and an equality check function that takes two parameters (oldValue, newValue).")
  else (setEqCheck m (fnId ctorArg) isEqual, .ok ())

/-- The store produced by the constructor for a given initial heap and
initial data value (the Blaze view hook and computed-value parsing
concern the external Tracker/Blaze collaborators and are outside the
modelled core). -/
def mkStore (h : Heap) (initData : Val) : Store :=
  { heap := h, data := initData,
    _isTraversable := isTraversableB h initData,
    _initData := initData }

/-- The cached-traversability invariant: the `_isTraversable` flag agrees
with `ReactiveStore.isTraversable(this.data)`. -/
def Inv (s : Store) : Prop :=
  s._isTraversable = isTraversableB s.heap s.data

/-- No mutator is registered for the path. -/
def noMutatorB (s : Store) (p : String) : Bool :=
  match lookupPD s._pathData p with
  | some pd => pd.mutate.isNone
  | none => true

/-- The cached tokens for the path (if any) are a genuine token list
(non-empty, as `String.split` always produces). -/
def tokensOkB (s : Store) (p : String) : Bool :=
  match lookupPD s._pathData p with
  | some pd => !(pd.tokens = [])
  | none => true

/-- No mutator is registered for the path and its cached tokens are
well-formed. -/
def cleanPathDataB (s : Store) (p : String) : Bool :=
  noMutatorB s p && tokensOkB s p

/-- The `(ref, token)` edges the write walk of an `assign` at this path
follows, including the final write target. -/
def assignChainOf (s : Store) (p : String) : List (Nat × String) :=
  let pd := (_getPathData s p).2
  let s1 := if s._isTraversable then s else coerceRoot s
  match s1.data, splitLast pd.tokens with
  | .ref r, some (parents, lastT) =>
    match walkParents s1.heap r false parents with
    | some (_, pRef, edges) => edges ++ [(pRef, lastT)]
    | none => []
  | _, _ => []

/-! ### Basic lemmas about the pending set and the diff tail -/

theorem addPending_mem_of_mem {x d : Nat} {l : List Nat} (h : x ∈ l) :
    x ∈ addPending d l := by
  unfold addPending
  split
  · exact h
  · exact List.mem_append_left _ h

theorem addPending_self (d : Nat) (l : List Nat) : d ∈ addPending d l := by
  unfold addPending
  split
  · assumption
  · exact List.mem_append_right _ (List.mem_singleton.mpr rfl)

theorem addPending_nodup {d : Nat} {l : List Nat} (h : l.Nodup) :
    (addPending d l).Nodup := by
  unfold addPending
  split
  · exact h
  · simpa [List.nodup_append] using ⟨h, by assumption⟩

theorem tcdFinish_fst (h : Heap) (dn : Option DepNode)
    (subs : Option (List (String × DepNode))) (newValue : Val)
    (changed nvt : Bool) (seen pending : List Nat) :
    (tcdFinish h dn subs newValue changed nvt seen pending).1 = changed := by
  unfold tcdFinish
  cases changed <;> simp

/-- An empty store whose root is a fresh `{}` (the result of
`new ReactiveStore({ data: () => ({}) })`). -/
def exampleStore : Store := mkStore [emptyObj] (.ref 0)

/-! ### Heap lemmas: field writes and allocations never change an
object's constructor or SHALLOW mark, hence never change traversability -/

/-- The identity-relevant metadata of a heap slot. -/
def metaOf (h : Heap) (r : Nat) : Option (Nat × Bool) :=
  (h[r]?).map (fun o => (o.ctor, o.shallow))

theorem isTraversableB_ref (h : Heap) (r : Nat) :
    isTraversableB h (.ref r)
      = (match h[r]? with
         | some o => (decide (o.ctor = 0) || decide (o.ctor = 1)) && !o.shallow
         | none => false) := rfl

theorem isTraversableB_congr_meta {h h2 : Heap} (v : Val)
    (hm : ∀ r, metaOf h2 r = metaOf h r) :
    isTraversableB h2 v = isTraversableB h v := by
  cases v with
  | ref r =>
    have hr := hm r
    unfold metaOf at hr
    rw [isTraversableB_ref, isTraversableB_ref]
    cases h1 : h[r]? with
    | none =>
      cases h2l : h2[r]? with
      | none => rfl
      | some o =>
        rw [h1, h2l] at hr
        exact absurd hr (by simp)
    | some o =>
      cases h2l : h2[r]? with
      | none =>
        rw [h1, h2l] at hr
        exact absurd hr (by simp)
      | some o2 =>
        rw [h1, h2l] at hr
        have h5 : (o2.ctor, o2.shallow) = (o.ctor, o.shallow) := Option.some.inj hr
        have h3 : o2.ctor = o.ctor := congrArg Prod.fst h5
        have h4 : o2.shallow = o.shallow := congrArg Prod.snd h5
        have h6 : ((decide (o2.ctor = 0) || decide (o2.ctor = 1)) && !o2.shallow)
            = ((decide (o.ctor = 0) || decide (o.ctor = 1)) && !o.shallow) := by
          rw [h3, h4]
        exact h6
  | undef => rfl
  | null => rfl
  | num n => rfl
  | str s => rfl
  | bool b => rfl
  | sym i => rfl
  | fn i a => rfl

theorem metaOf_set {h : Heap} {r : Nat} {o o2 : Obj} (hl : h[r]? = some o)
    (hmeta : o2.ctor = o.ctor ∧ o2.shallow = o.shallow) (x : Nat) :
    metaOf (h.set r o2) x = metaOf h x := by
  unfold metaOf
  by_cases hx : r = x
  · subst hx
    have hlt : r < h.length := (List.getElem?_eq_some.mp hl).1
    rw [List.getElem?_set_eq_of_lt _ hlt, hl]
    simp [hmeta.1, hmeta.2]
  · rw [List.getElem?_set_ne hx]

theorem metaOf_setField (h : Heap) (r : Nat) (k : String) (w : Val) (x : Nat) :
    metaOf (setField h r k w) x = metaOf h x := by
  unfold setField
  split
  · rename_i o heq
    apply metaOf_set heq
    exact ⟨rfl, rfl⟩
  · rfl

theorem metaOf_removeField (h : Heap) (r : Nat) (k : String) (x : Nat) :
    metaOf (removeField h r k) x = metaOf h x := by
  unfold removeField
  split
  · rename_i o heq
    apply metaOf_set heq
    exact ⟨rfl, rfl⟩
  · rfl

theorem isTrav_setField (h : Heap) (r : Nat) (k : String) (w v : Val) :
    isTraversableB (setField h r k w) v = isTraversableB h v :=
  isTraversableB_congr_meta v (metaOf_setField h r k w)

theorem isTrav_removeField (h : Heap) (r : Nat) (k : String) (v : Val) :
    isTraversableB (removeField h r k) v = isTraversableB h v :=
  isTraversableB_congr_meta v (metaOf_removeField h r k)

theorem isTrav_append_of_true {h : Heap} (tl : Heap) {v : Val}
    (ht : isTraversableB h v = true) : isTraversableB (h ++ tl) v = true := by
  cases v with
  | ref r =>
    rw [isTraversableB_ref] at ht ⊢
    cases hl : h[r]? with
    | none => rw [hl] at ht; exact absurd ht (by simp)
    | some o =>
      have hlt : r < h.length := (List.getElem?_eq_some.mp hl).1
      rw [List.getElem?_append, if_pos hlt, hl]
      rw [hl] at ht
      exact ht
  | undef => exact ht
  | null => exact ht
  | num n => exact ht
  | str s => exact ht
  | bool b => exact ht
  | sym i => exact ht
  | fn i a => exact ht

theorem isTrav_fresh (h : Heap) : isTraversableB (h ++ [emptyObj]) (.ref h.length) = true := by
  rw [isTraversableB_ref, List.getElem?_concat_length]
  rfl

theorem walkParents_trav {ts : List String} :
    ∀ {h : Heap} {r : Nat} {unset : Bool} {h1 : Heap} {p : Nat}
      {es : List (Nat × String)} {v : Val},
      walkParents h r unset ts = some (h1, p, es) →
      isTraversableB h v = true → isTraversableB h1 v = true := by
  induction ts with
  | nil =>
    intro h r unset h1 p es v hw ht
    unfold walkParents at hw
    cases hw
    exact ht
  | cons t ts ih =>
    intro h r unset h1 p es v hw ht
    simp only [walkParents] at hw
    cases htr : travRef h (objRead h r t) with
    | some r2 =>
      simp only [htr] at hw
      cases hsub : walkParents h r2 unset ts with
      | none =>
        simp only [hsub] at hw
        exact absurd hw (by simp)
      | some q =>
        simp only [hsub, Option.map_some] at hw
        have hq : q.1 = h1 := congrArg (fun z => z.1) (Option.some.inj hw)
        subst hq
        exact ih hsub ht
    | none =>
      simp only [htr] at hw
      by_cases hu : unset
      · rw [if_pos hu] at hw; exact absurd hw (by simp)
      · rw [if_neg hu] at hw
        simp only [allocObj] at hw
        cases hsub : walkParents (setField (h ++ [emptyObj]) r t (.ref h.length))
            h.length unset ts with
        | none =>
          simp only [hsub] at hw
          exact absurd hw (by simp)
        | some q =>
          simp only [hsub, Option.map_some] at hw
          have hq : q.1 = h1 := congrArg (fun z => z.1) (Option.some.inj hw)
          subst hq
          have ht2 : isTraversableB (setField (h ++ [emptyObj]) r t (.ref h.length)) v = true := by
            rw [isTrav_setField]
            exact isTrav_append_of_true [emptyObj] ht
          exact ih hsub ht2

/-! ### C3 -/

/-- C3: for every call of the diff engine `_triggerChangedDeps`, if the
old value is a primitive, `undefined`, `null`, or a function (a value
compared by strict identity), the `changed` verdict equals
`oldValue !== newValue`; otherwise, if old and new are the same
reference, the verdict is `true`. -/
theorem triggerChangedDeps_strict_and_sameRef (h : Heap) (dn : Option DepNode)
    (oldValue newValue : Val) (pending : List Nat) :
    (useStrictEqualityCheck oldValue = true →
      (_triggerChangedDeps h dn oldValue newValue pending).1
        = decide (oldValue ≠ newValue)) ∧
    (useStrictEqualityCheck oldValue = false → oldValue = newValue →
      (_triggerChangedDeps h dn oldValue newValue pending).1 = true) := by
  constructor
  · intro hs
    unfold _triggerChangedDeps
    rw [tcdF]
    simp [hs, tcdFinish_fst]
  · intro hs he
    subst he
    unfold _triggerChangedDeps
    rw [tcdF]
    simp [hs, tcdFinish_fst]

/-- Witness for C3: a primitive diff (`1` vs `2`) reports changed, and a
same-reference diff of a heap object reports changed. -/
theorem triggerChangedDeps_strict_and_sameRef_witness :
    (useStrictEqualityCheck (Val.num 1) = true ∧
      (_triggerChangedDeps [emptyObj] none (.num 1) (.num 2) []).1
        = decide ((Val.num 1) ≠ (Val.num 2))) ∧
    (useStrictEqualityCheck (Val.ref 0) = false ∧
      (_triggerChangedDeps [emptyObj] none (.ref 0) (.ref 0) []).1 = true) :=
  ⟨⟨by decide,
    (triggerChangedDeps_strict_and_sameRef [emptyObj] none (.num 1) (.num 2) []).1
      (by decide)⟩,
   ⟨by decide,
    (triggerChangedDeps_strict_and_sameRef [emptyObj] none (.ref 0) (.ref 0) []).2
      (by decide) rfl⟩⟩

/-! ### C8 -/

/-- C8: the three usage errors are thrown synchronously and leave the
state unchanged: `equals` with a comparison value that is not
identity-comparable, `call` with an unregistered method name, and
`addEqualityCheck` with a non-function constructor, non-function check,
or a check whose arity is not exactly 2. -/
theorem usage_errors_throw (s : Store) (tracked : Bool) (path : Option String)
    (v : Val) (interp : Nat → Store → List Val → Store × Val)
    (methodName : String) (params : List Val)
    (m : List (Nat × Val)) (c f : Val) :
    (useStrictEqualityCheck v = false →
      equals s tracked path v = (s, .error "ReactiveStore: Only primitive values (number, string, boolean, undefined, null, symbol) and functions can be registered as equality dependencies.")) ∧
    (lookupMethod s._methods methodName = none →
      call s interp methodName params
        = (s, .error ("Method " ++ methodName ++ " is not defined."))) ∧
    ((isFn c = false ∨ isFn f = false ∨ fnArity f ≠ 2) →
      addEqualityCheck m c f = (m, .error "You must provide a valid constructor function/class and an equality check function that takes two parameters (oldValue, newValue).")) := by
  refine ⟨fun hv => ?_, fun hn => ?_, fun hc => ?_⟩
  · simp [equals, hv]
  · simp [call, hn]
  · simp only [addEqualityCheck]
    rw [if_pos hc]

/-- Witness for C8: the three failing calls on concrete inputs. -/
theorem usage_errors_throw_witness :
    (useStrictEqualityCheck (Val.ref 0) = false ∧
      equals exampleStore false none (.ref 0)
        = (exampleStore, .error "ReactiveStore: Only primitive values (number, string, boolean, undefined, null, symbol) and functions can be registered as equality dependencies.")) ∧
    (lookupMethod exampleStore._methods "missing" = none ∧
      call exampleStore (fun _ st _ => (st, .undef)) "missing" []
        = (exampleStore, .error ("Method " ++ "missing" ++ " is not defined."))) ∧
    ((isFn (Val.num 1) = false ∨ isFn (Val.num 2) = false ∨ fnArity (Val.num 2) ≠ 2) ∧
      addEqualityCheck [] (.num 1) (.num 2)
        = ([], .error "You must provide a valid constructor function/class and an equality check function that takes two parameters (oldValue, newValue).")) :=
  ⟨⟨by decide,
    (usage_errors_throw exampleStore false none (.ref 0)
      (fun _ st _ => (st, .undef)) "missing" [] [] (.num 1) (.num 2)).1 (by decide)⟩,
   ⟨rfl,
    (usage_errors_throw exampleStore false none (.ref 0)
      (fun _ st _ => (st, .undef)) "missing" [] [] (.num 1) (.num 2)).2.1 rfl⟩,
   ⟨Or.inl (by decide),
    (usage_errors_throw exampleStore false none (.ref 0)
      (fun _ st _ => (st, .undef)) "missing" [] [] (.num 1) (.num 2)).2.2
      (Or.inl (by decide))⟩⟩

/-! ### C2 -/

/-- C2: every externally invoked mutation runs inside the nesting-counted
scope of `_watchChanges` (shown definitionally for `assign` and `delete`;
`set` calls it by definition as well): the operation counter is
incremented around the body, and only when it returns to zero is every
distinct queued dep fired exactly once (the pending set, kept
duplicate-free, is appended to the fired log once) and the pending set
cleared; when the operation is nested (counter not returning to zero)
nothing is fired and the queue is kept. -/
theorem watchChanges_batching (s : Store) (op : Store → Store) (t : Store)
    (hop : op { s with opCount := s.opCount + 1 } = t)
    (hbal : t.opCount = s.opCount + 1)
    (hnd : t.pending.Nodup) :
    (s.opCount = 0 →
      (_watchChanges op s).pending = [] ∧
      (_watchChanges op s).fired = t.fired ++ t.pending ∧
      ∀ d ∈ t.pending, ((_watchChanges op s).fired.count d) = (t.fired.count d) + 1) ∧
    (s.opCount ≠ 0 →
      (_watchChanges op s).fired = t.fired ∧
      (_watchChanges op s).pending = t.pending ∧
      (_watchChanges op s).opCount = s.opCount) ∧
    (∀ p v, assign s p v = _watchChanges (fun st => _setAtPath st p v) s) ∧
    (∀ ps, s._isTraversable = true →
      delete s ps = _watchChanges (fun st => ps.foldl (fun a q => _setAtPath a q deleteV) st) s) := by
  have hw : _watchChanges op s =
      (if ({ t with opCount := t.opCount - 1 }).opCount = 0
          ∧ ({ t with opCount := t.opCount - 1 }).pending ≠ [] then
        { ({ t with opCount := t.opCount - 1 }) with
            fired := ({ t with opCount := t.opCount - 1 }).fired
              ++ ({ t with opCount := t.opCount - 1 }).pending,
            pending := [] }
      else { t with opCount := t.opCount - 1 }) := by
    simp only [_watchChanges, hop]
  refine ⟨fun h0 => ?_, fun hne => ?_, fun p v => rfl, fun ps ht => by simp [delete, ht]⟩
  · rw [hw]
    simp only [hbal, h0]
    by_cases hp : t.pending = []
    · simp [hp]
    · simp [hp, List.count_append]
      intro d hd
      have h1 : t.pending.count d = 1 := List.count_eq_one_of_mem hnd hd
      omega
  · rw [hw]
    simp [hbal, hne]

/-- A concrete body that queues deps 4 and 3 (as a nested reentrant
mutation would through `_registerChange`). -/
def batchOp : Store → Store :=
  fun st => { st with pending := addPending 3 (addPending 4 st.pending) }

/-- Witness for C2: a batched operation on the empty store queueing two
deps fires each exactly once and clears the queue. -/
theorem watchChanges_batching_witness :
    (batchOp { exampleStore with opCount := exampleStore.opCount + 1 }).opCount
      = exampleStore.opCount + 1 ∧
    (batchOp { exampleStore with opCount := exampleStore.opCount + 1 }).pending.Nodup ∧
    exampleStore.opCount = 0 ∧
    ((_watchChanges batchOp exampleStore).pending = [] ∧
     (_watchChanges batchOp exampleStore).fired
       = (batchOp { exampleStore with opCount := exampleStore.opCount + 1 }).fired
         ++ (batchOp { exampleStore with opCount := exampleStore.opCount + 1 }).pending ∧
     ∀ d ∈ (batchOp { exampleStore with opCount := exampleStore.opCount + 1 }).pending,
       ((_watchChanges batchOp exampleStore).fired.count d)
         = ((batchOp { exampleStore with opCount := exampleStore.opCount + 1 }).fired.count d) + 1) :=
  ⟨rfl, by decide, rfl,
    (watchChanges_batching exampleStore batchOp _ rfl rfl (by decide)).1 rfl⟩

/-! ### C9 -/

/-- A store whose root is the primitive `5` (not traversable). -/
def primStore : Store := mkStore [] (.num 5)

/-- Counterexample for C9: `_setAtPath` invoked with the CANCEL sentinel —
a non-DELETE value — on a store with a non-traversable root leaves the
root untouched instead of replacing it with a fresh `{}` (the operation
is cancelled before the coercion). -/
theorem setAtPath_cancel_skips_coercion :
    primStore._isTraversable = false ∧ cancelV ≠ deleteV ∧
    (_setAtPath primStore "a" cancelV).data = primStore.data ∧
    (_setAtPath primStore "a" cancelV)._isTraversable = false := by
  decide

/-- C9 (amended): if the root value is not traversable and `_setAtPath`
is invoked with a value that is neither the CANCEL nor the DELETE
sentinel (after the path's mutator, absent here), the old root value is
discarded and replaced by a fresh plain `{}` before the write proceeds;
if the value is DELETE the operation aborts with the root unchanged; a
CANCEL value aborts before the coercion. -/
theorem setAtPath_coerces_root (s : Store) (p : String) (v : Val)
    (hm : noMutatorB s p = true) (ht : s._isTraversable = false)
    (hv : v ≠ cancelV) :
    (v = deleteV → _setAtPath s p v = (_getPathData s p).1) ∧
    (v ≠ deleteV → _setAtPath s p v = _setAtPath (coerceRoot s) p v) := by
  unfold _setAtPath _setAtPathCore
  unfold noMutatorB at hm
  cases hl : lookupPD s._pathData p with
  | some pd =>
    rw [hl] at hm
    have hmn : pd.mutate = none := Option.isNone_iff_eq_none.mp hm
    constructor
    · intro hd
      subst hd
      simp [_getPathData, _setAtPathVal, hl, hmn, hv, ht, coerceRoot]
    · intro hnd
      simp [_getPathData, _setAtPathVal, hl, hmn, hv, ht, hnd, coerceRoot]
  | none =>
    constructor
    · intro hd
      subst hd
      simp [_getPathData, _setAtPathVal, hl, hv, ht, coerceRoot]
    · intro hnd
      simp [_getPathData, _setAtPathVal, hl, hv, ht, hnd, coerceRoot]

/-- Witness for C9: assigning `1` at `"a"` on the primitive-rooted store
goes through the root coercion. -/
theorem setAtPath_coerces_root_witness :
    noMutatorB primStore "a" = true ∧ primStore._isTraversable = false ∧
    (Val.num 1) ≠ cancelV ∧ (Val.num 1) ≠ deleteV ∧
    _setAtPath primStore "a" (.num 1) = _setAtPath (coerceRoot primStore) "a" (.num 1) :=
  ⟨by decide, by decide, by decide, by decide,
    (setAtPath_coerces_root primStore "a" (.num 1) (by decide) (by decide)
      (by decide)).2 (by decide)⟩

/-! ### C10 -/

theorem Inv_of_fields {s t : Store} (hh : t.heap = s.heap) (hd : t.data = s.data)
    (ht : t._isTraversable = s._isTraversable) (h : Inv s) : Inv t := by
  unfold Inv at *
  rw [hh, hd, ht]
  exact h

theorem Inv_getPathData {s : Store} (p : String) (h : Inv s) : Inv (_getPathData s p).1 := by
  unfold _getPathData
  split
  · exact h
  · exact Inv_of_fields rfl rfl rfl h

theorem Inv_coerceRoot (s : Store) : Inv (coerceRoot s) := by
  unfold Inv coerceRoot
  simp only [allocObj]
  exact (isTrav_fresh s.heap).symm

theorem Inv_setAtPathVal (s : Store) (tokens : List String) (v : Val) (h : Inv s) :
    Inv (_setAtPathVal s tokens v).1 := by
  unfold _setAtPathVal
  simp only []
  split
  · exact h
  · split
    · exact h
    · rename_i s2 heq
      have hs2 : Inv s2 ∧ s2._isTraversable = true := by
        split at heq
        · cases heq
          rename_i hf
          exact ⟨h, hf⟩
        · split at heq
          · cases heq
          · cases heq
            exact ⟨Inv_coerceRoot _, rfl⟩
      split
      · rename_i rRoot parents lastT hdata hsplit
        split
        · exact hs2.1
        · rename_i h1 pRef es hwalk
          have htrav1 : isTraversableB h1 s2.data = true := by
            apply walkParents_trav hwalk
            rw [← hs2.1]
            exact hs2.2
          have hflag := hs2.2
          split
          · split
            · refine Inv_of_fields (s := { s2 with heap := removeField h1 pRef lastT }) rfl rfl rfl ?_
              unfold Inv
              simp only [hflag]
              rw [isTrav_removeField]
              exact htrav1.symm
            · refine Inv_of_fields (s := { s2 with heap := h1 }) rfl rfl rfl ?_
              unfold Inv
              simp only [hflag]
              exact htrav1.symm
          · split
            · refine Inv_of_fields (s := { s2 with heap := setField h1 pRef lastT v }) rfl rfl rfl ?_
              unfold Inv
              simp only [hflag]
              rw [isTrav_setField]
              exact htrav1.symm
            · refine Inv_of_fields (s := { s2 with heap := setField h1 pRef lastT v }) rfl rfl rfl ?_
              unfold Inv
              simp only [hflag]
              rw [isTrav_setField]
              exact htrav1.symm
      · rename_i hcatch
        exact hs2.1

theorem Inv_setAtPath (s : Store) (p : String) (v : Val) (h : Inv s) :
    Inv (_setAtPath s p v) := by
  unfold _setAtPath _setAtPathCore
  exact Inv_setAtPathVal _ _ _ (Inv_getPathData p h)

theorem Inv_watchChanges (op : Store → Store) (s : Store)
    (hop : ∀ st, Inv st → Inv (op st)) (h : Inv s) : Inv (_watchChanges op s) := by
  unfold _watchChanges
  simp only []
  have h2 : Inv (op { s with opCount := s.opCount + 1 }) :=
    hop _ (Inv_of_fields rfl rfl rfl h)
  split
  · exact Inv_of_fields rfl rfl rfl h2
  · exact Inv_of_fields rfl rfl rfl h2

theorem Inv_foldl {α : Type} (f : Store → α → Store)
    (hf : ∀ st a, Inv st → Inv (f st a)) :
    ∀ (l : List α) (st : Store), Inv st → Inv (l.foldl f st) := by
  intro l
  induction l with
  | nil => intro st h; exact h
  | cons a l ih => intro st h; exact ih _ (hf st a h)

theorem Inv_set (s : Store) (v : Val) : Inv (set s v) := by
  unfold set
  apply Inv_watchChanges
  · intro st hst
    exact Inv_of_fields rfl rfl rfl hst
  · unfold Inv
    rfl

/-- C10: after the constructor and after every public mutation (`set`,
`assign`, `delete`, `clear`, `reset`) returns, the cached
`_isTraversable` flag agrees with `ReactiveStore.isTraversable(this.data)`
(mutators modelled as pure value transformers). -/
theorem isTraversable_cache_invariant (s : Store) (hInv : Inv s) :
    (∀ (h : Heap) (d : Val), Inv (mkStore h d)) ∧
    (∀ v, Inv (set s v)) ∧
    (∀ p v, Inv (assign s p v)) ∧
    (∀ pvs, Inv (assignMany s pvs)) ∧
    (∀ ps, Inv (delete s ps)) ∧
    Inv (clear s) ∧
    Inv (reset s) := by
  refine ⟨fun h d => rfl, fun v => Inv_set s v, fun p v => ?_, fun pvs => ?_,
    fun ps => ?_, ?_, Inv_set s _⟩
  · exact Inv_watchChanges _ _ (fun st hst => Inv_setAtPath st p v hst) hInv
  · exact Inv_watchChanges _ _
      (Inv_foldl _ (fun st a hst => Inv_setAtPath st a.1 a.2 hst) pvs) hInv
  · unfold delete
    split
    · exact Inv_watchChanges _ _
        (Inv_foldl _ (fun st a hst => Inv_setAtPath st a deleteV hst) ps) hInv
    · exact hInv
  · unfold clear
    split
    · exact Inv_set _ _
    · exact Inv_set _ _

/-- Witness for C10: the invariant holds on the example store and is kept
by a deep assign. -/
theorem isTraversable_cache_invariant_witness :
    Inv exampleStore ∧ Inv (assign exampleStore "a.b" (.num 1)) :=
  ⟨by unfold Inv; rfl,
    (isTraversable_cache_invariant exampleStore (by unfold Inv; rfl)).2.2.1 "a.b" (.num 1)⟩

/-! ### Structural lemmas about token lists, the DepNode tree, the diff
tail and the write walk -/

theorem splitLast_append : ∀ {ts : List String} {ps : List String} {t : String},
    splitLast ts = some (ps, t) → ts = ps ++ [t] := by
  intro ts
  induction ts with
  | nil => intro ps t h; simp [splitLast] at h
  | cons a rest ih =>
    intro ps t h
    cases rest with
    | nil =>
      unfold splitLast at h
      cases h
      rfl
    | cons b rest2 =>
      unfold splitLast at h
      cases hs : splitLast (b :: rest2) with
      | none => rw [hs] at h; simp at h
      | some q =>
        rw [hs] at h
        have h2 : (a :: q.1, q.2) = (ps, t) := Option.some.inj h
        have hps : ps = a :: q.1 := (congrArg Prod.fst h2).symm
        have hqt : t = q.2 := (congrArg Prod.snd h2).symm
        subst hps
        subst hqt
        have h3 := @ih q.1 q.2 (by rw [hs])
        simp [h3]

theorem objRead_undef_of_enumF_false {h : Heap} {r : Nat} {k : String}
    (he : enumF h r k = false) : objRead h r k = .undef := by
  cases hl : h[r]? with
  | none => simp [objRead, hl]
  | some o =>
    cases hf : lookupField o.fields k with
    | none => simp [objRead, hl, hf]
    | some v => simp [enumF, hl, hf] at he

theorem enumF_true_of_objRead {h : Heap} {r : Nat} {k : String}
    (hne : objRead h r k ≠ .undef) : enumF h r k = true := by
  by_cases he : enumF h r k = true
  · exact he
  · exact absurd (objRead_undef_of_enumF_false (by simpa using he)) hne

theorem updateDep_lookup_self : ∀ {subs : List (String × DepNode)} {t : String} {d : DepNode},
    lookupDep subs t = some d → updateDep subs t d = subs := by
  intro subs
  induction subs with
  | nil => intro t d h; simp [lookupDep] at h
  | cons e rest ih =>
    intro t d h
    cases e with
    | mk k x =>
      unfold lookupDep at h
      unfold updateDep
      by_cases hk : k = t
      · rw [if_pos hk] at h ⊢
        cases h
        rfl
      · rw [if_neg hk] at h ⊢
        rw [ih h]

theorem nodeAt_subDeps (dn : DepNode) (t : String) (ts : List String) :
    nodeAt dn (t :: ts) = (match lookupDep dn.subDeps t with
      | some d => nodeAt d ts
      | none => none) := by
  cases dn
  rfl

theorem modifyNodeAt_const_self : ∀ {q : List String} {dn n : DepNode},
    nodeAt dn q = some n → modifyNodeAt dn q (fun _ => n) = dn := by
  intro q
  induction q with
  | nil =>
    intro dn n h
    unfold nodeAt at h
    cases h
    rfl
  | cons t ts ih =>
    intro dn n h
    cases dn with
    | mk c subs =>
      rw [nodeAt_subDeps] at h
      simp only [DepNode.subDeps] at h
      cases hl : lookupDep subs t with
      | none => rw [hl] at h; simp at h
      | some d =>
        rw [hl] at h
        simp only [] at h
        simp only [modifyNodeAt, hl]
        rw [ih h, updateDep_lookup_self hl]

theorem rebuildDep_self (dn : Option DepNode) :
    rebuildDep dn (dn.map DepNode.subDeps) = dn := by
  cases dn with
  | none => rfl
  | some d => cases d; rfl

theorem triggerAllDeps_nontrav {h : Heap} {deps : Option (List (String × DepNode))}
    {kf cv : Val} {seen pending : List Nat} (hk : isTraversableB h kf = false) :
    _triggerAllDeps h deps kf cv seen pending = (deps, seen, pending) := by
  cases deps with
  | none => rw [_triggerAllDeps]
  | some subs =>
    rw [_triggerAllDeps]
    simp [hk]

theorem tcd_strict (h : Heap) (dn : Option DepNode) (oldValue newValue : Val)
    (pending : List Nat) (hs : useStrictEqualityCheck oldValue = true) :
    _triggerChangedDeps h dn oldValue newValue pending
      = ((tcdFinish h dn (dn.map DepNode.subDeps) newValue
            (decide (oldValue ≠ newValue)) false [] pending).1,
         (tcdFinish h dn (dn.map DepNode.subDeps) newValue
            (decide (oldValue ≠ newValue)) false [] pending).2.1,
         (tcdFinish h dn (dn.map DepNode.subDeps) newValue
            (decide (oldValue ≠ newValue)) false [] pending).2.2.2) := by
  unfold _triggerChangedDeps
  rw [tcdF]
  simp [hs]

theorem tcd_undef_undef (h : Heap) (dn : Option DepNode) (pending : List Nat) :
    _triggerChangedDeps h dn .undef .undef pending = (false, dn, pending) := by
  rw [tcd_strict h dn .undef .undef pending rfl]
  have hdec : decide ((Val.undef) ≠ (Val.undef)) = false := by decide
  rw [hdec]
  unfold tcdFinish
  rw [rebuildDep_self]
  cases dn with
  | none => simp
  | some d =>
    cases d with
    | mk c s =>
      simp only []
      rw [triggerAllDeps_nontrav (by rfl)]
      simp

theorem walkParents_false_isSome : ∀ (ts : List String) (h : Heap) (r : Nat),
    (walkParents h r false ts).isSome = true := by
  intro ts
  induction ts with
  | nil => intro h r; rfl
  | cons t ts ih =>
    intro h r
    rw [walkParents]
    cases htr : travRef h (objRead h r t) with
    | some r2 =>
      simp only []
      cases hsub : walkParents h r2 false ts with
      | none =>
        have h2 := ih h r2
        rw [hsub] at h2
        simp at h2
      | some q => simp [hsub]
    | none =>
      simp only [Bool.false_eq_true, if_false]
      cases hsub : walkParents (setField (h ++ [emptyObj]) r t (.ref h.length))
          h.length false ts with
      | none =>
        have h2 := ih (setField (h ++ [emptyObj]) r t (.ref h.length)) h.length
        rw [hsub] at h2
        simp at h2
      | some q => simp [allocObj, hsub]

theorem travRef_some {h : Heap} {v : Val} {r2 : Nat} (ht : travRef h v = some r2) :
    v = .ref r2 ∧ isTraversableB h (.ref r2) = true := by
  cases v with
  | ref r =>
    have ht2 : (if isTraversableB h (.ref r) = true then some r else none) = some r2 := ht
    by_cases htr : isTraversableB h (.ref r) = true
    · rw [if_pos htr] at ht2
      cases ht2
      exact ⟨rfl, htr⟩
    · rw [if_neg htr] at ht2
      cases ht2
  | undef => simp [travRef] at ht
  | null => simp [travRef] at ht
  | num n => simp [travRef] at ht
  | str s => simp [travRef] at ht
  | bool b => simp [travRef] at ht
  | sym i => simp [travRef] at ht
  | fn i a => simp [travRef] at ht

theorem fresh_after_set (h : Heap) (r : Nat) (t : String) (hr : r < h.length) :
    (setField (h ++ [emptyObj]) r t (.ref h.length))[h.length]? = some emptyObj := by
  unfold setField
  cases hl : (h ++ [emptyObj])[r]? with
  | none => exact List.getElem?_concat_length h emptyObj
  | some o =>
    rw [List.getElem?_set_ne (by omega : r ≠ h.length)]
    exact List.getElem?_concat_length h emptyObj

theorem walkParents_empty_read : ∀ (ps : List String) {h : Heap} {r : Nat} {o : Obj}
    {lastT : String} {out : Heap × Nat × List (Nat × String)},
    h[r]? = some o → o.fields = [] → walkParents h r false ps = some out →
    objRead out.1 out.2.1 lastT = .undef := by
  intro ps
  induction ps with
  | nil =>
    intro h r o lastT out hl he hw
    unfold walkParents at hw
    cases hw
    simp [objRead, hl, he, lookupField]
  | cons t ps ih =>
    intro h r o lastT out hl he hw
    have hread : objRead h r t = .undef := by simp [objRead, hl, he, lookupField]
    rw [walkParents] at hw
    rw [hread] at hw
    simp only [travRef] at hw
    simp only [Bool.false_eq_true, if_false, allocObj] at hw
    cases hsub : walkParents (setField (h ++ [emptyObj]) r t (.ref h.length))
        h.length false ps with
    | none => rw [hsub] at hw; simp at hw
    | some q =>
      rw [hsub] at hw
      have hq1 : q.1 = out.1 ∧ q.2.1 = out.2.1 := by
        have h6 := Option.some.inj hw
        constructor
        · exact congrArg (fun z => z.1) h6
        · exact congrArg (fun z => z.2.1) h6
      have hr : r < h.length := (List.getElem?_eq_some.mp hl).1
      have h5 := @ih (setField (h ++ [emptyObj]) r t (.ref h.length)) h.length emptyObj
        lastT q (fresh_after_set h r t hr) rfl hsub
      rw [hq1.1, hq1.2] at h5
      exact h5

theorem walkParents_read_undef : ∀ (parents : List String) {h : Heap} {r : Nat}
    {lastT : String} {out : Heap × Nat × List (Nat × String)},
    isTraversableB h (.ref r) = true →
    walkParents h r false parents = some out →
    (pureWalk h (.ref r) (parents ++ [lastT])).1 = .undef →
    objRead out.1 out.2.1 lastT = .undef := by
  intro parents
  induction parents with
  | nil =>
    intro h r lastT out htrav hw hread
    unfold walkParents at hw
    cases hw
    by_cases he : enumF h r lastT = true
    · have hcond : (isTraversableB h (.ref r) && enumVal h (.ref r) lastT) = true := by
        rw [htrav]
        simpa [enumVal] using he
      rw [List.nil_append] at hread
      rw [pureWalk, if_pos hcond] at hread
      exact hread
    · exact objRead_undef_of_enumF_false (by simpa using he)
  | cons t ps ih =>
    intro h r lastT out htrav hw hread
    rw [walkParents] at hw
    cases htr : travRef h (objRead h r t) with
    | some r2 =>
      simp only [htr] at hw
      obtain ⟨heq, htrav2⟩ := travRef_some htr
      cases hsub : walkParents h r2 false ps with
      | none => rw [hsub] at hw; simp at hw
      | some q =>
        rw [hsub] at hw
        have hq1 : q.1 = out.1 := congrArg (fun z => z.1) (Option.some.inj hw)
        have hq2 : q.2.1 = out.2.1 := congrArg (fun z => z.2.1) (Option.some.inj hw)
        have hne : objRead h r t ≠ .undef := by rw [heq]; simp
        have henum := enumF_true_of_objRead hne
        have hcond : (isTraversableB h (.ref r) && enumVal h (.ref r) t) = true := by
          rw [htrav]
          simpa [enumVal] using henum
        rw [List.cons_append, pureWalk, if_pos hcond] at hread
        have hrv : readVal h (.ref r) t = Val.ref r2 := heq
        rw [hrv] at hread
        have h5 := @ih h r2 lastT q htrav2 hsub hread
        rw [hq1, hq2] at h5
        exact h5
    | none =>
      simp only [htr] at hw
      simp only [Bool.false_eq_true, if_false, allocObj] at hw
      cases hsub : walkParents (setField (h ++ [emptyObj]) r t (.ref h.length))
          h.length false ps with
      | none => rw [hsub] at hw; simp at hw
      | some q =>
        rw [hsub] at hw
        have hq1 : q.1 = out.1 := congrArg (fun z => z.1) (Option.some.inj hw)
        have hq2 : q.2.1 = out.2.1 := congrArg (fun z => z.2.1) (Option.some.inj hw)
        have hr : r < h.length := by
          rw [isTraversableB_ref] at htrav
          cases hlk : h[r]? with
          | none => rw [hlk] at htrav; simp at htrav
          | some o => exact (List.getElem?_eq_some.mp hlk).1
        have h5 := @walkParents_empty_read ps (setField (h ++ [emptyObj]) r t (.ref h.length))
          h.length emptyObj lastT q (fresh_after_set h r t hr) rfl hsub
        rw [hq1, hq2] at h5
        exact h5

/-! ### C4 -/

/-- A heap with the old container `{a: 1}` (ref 0) and the new container
`{a: 1, b: undefined}` (ref 1). -/
def keyHeap : Heap :=
  [ { fields := [("a", Val.num 1)] },
    { fields := [("a", Val.num 1), ("b", Val.undef)] } ]

/-- Counterexample for C4: a diff of two traversable containers where the
new value introduces a previously-absent key holding `undefined` does
report `changed` (the key-count check at line 817 fires before the
new-key-tolerance note can matter). -/
theorem diff_newKey_undefined_changed :
    isTraversableB keyHeap (.ref 0) = true ∧
    isTraversableB keyHeap (.ref 1) = true ∧
    enumF keyHeap 0 "b" = false ∧
    enumF keyHeap 1 "b" = true ∧
    objRead keyHeap 1 "b" = .undef ∧
    (_triggerChangedDeps keyHeap none (.ref 0) (.ref 1) []).1 = true := by
  decide

theorem getPathData_mutate_none {s : Store} {p : String}
    (hm : noMutatorB s p = true) : (_getPathData s p).2.mutate = none := by
  unfold noMutatorB at hm
  unfold _getPathData
  cases hl : lookupPD s._pathData p with
  | some pd =>
    rw [hl] at hm
    exact Option.isNone_iff_eq_none.mp hm
  | none => rfl

theorem getPathData_tokens (s : Store) (p : String) :
    (_getPathData s p).2.tokens = tokensOf s (some p) := by
  show (_getPathData s p).2.tokens
    = (match lookupPD s._pathData p with
       | some pd => pd.tokens
       | none => splitDot p)
  unfold _getPathData
  cases hl : lookupPD s._pathData p
  · rfl
  · rfl

theorem getPathData_parts (s : Store) (p : String) :
    (_getPathData s p).1.heap = s.heap ∧ (_getPathData s p).1.data = s.data ∧
    (_getPathData s p).1.pending = s.pending ∧
    (_getPathData s p).1.rootNode = s.rootNode := by
  unfold _getPathData
  cases hl : lookupPD s._pathData p
  · exact ⟨rfl, rfl, rfl, rfl⟩
  · exact ⟨rfl, rfl, rfl, rfl⟩

theorem setAtPathVal_undef_unchanged (s : Store) (tokens : List String)
    (hInv : Inv s)
    (hread : (pureWalk s.heap s.data tokens).1 = .undef) :
    (_setAtPathVal s tokens .undef).1.pending = s.pending ∧
    (_setAtPathVal s tokens .undef).1.rootNode = s.rootNode ∧
    (_setAtPathVal s tokens .undef).2 = false := by
  unfold _setAtPathVal
  rw [if_neg (by decide : ¬ ((Val.undef) = cancelV))]
  simp only [eq_false (by decide : ¬ ((Val.undef) = deleteV)), if_false]
  by_cases hf : s._isTraversable = true
  · rw [if_pos hf]
    simp only []
    split
    · rename_i rRoot parents lastT hdata hsl
      have htrav : isTraversableB s.heap (.ref rRoot) = true := by
        rw [← hdata, ← hInv]
        exact hf
      split
      · exact ⟨rfl, rfl, rfl⟩
      · rename_i h1 pRef es hwalk
        have htok : tokens = parents ++ [lastT] := splitLast_append hsl
        have hread2 : (pureWalk s.heap (.ref rRoot) (parents ++ [lastT])).1 = .undef := by
          rw [← htok, ← hdata]
          exact hread
        have hold : objRead h1 pRef lastT = .undef :=
          walkParents_read_undef parents htrav hwalk hread2
        rw [hold, tcd_undef_undef]
        cases hn : nodeAt s.rootNode tokens with
        | none => exact ⟨rfl, rfl, rfl⟩
        | some d2 => exact ⟨rfl, modifyNodeAt_const_self hn, rfl⟩
    · exact ⟨rfl, rfl, rfl⟩
  · rw [if_neg hf]
    simp only []
    split
    · rename_i rRoot parents lastT hdata hsl
      have hdr : rRoot = s.heap.length := by
        have h7 : (coerceRoot s).data = .ref s.heap.length := rfl
        rw [hdata] at h7
        exact Val.ref.inj h7
      subst hdr
      split
      · exact ⟨rfl, rfl, rfl⟩
      · rename_i h1 pRef es hwalk
        have hlk : (coerceRoot s).heap[s.heap.length]? = some emptyObj := by
          show (s.heap ++ [emptyObj])[s.heap.length]? = some emptyObj
          exact List.getElem?_concat_length s.heap emptyObj
        have hold : objRead h1 pRef lastT = .undef :=
          @walkParents_empty_read parents (coerceRoot s).heap s.heap.length emptyObj
            lastT (h1, pRef, es) hlk rfl hwalk
        rw [hold, tcd_undef_undef]
        cases hn : nodeAt (coerceRoot s).rootNode tokens with
        | none => exact ⟨rfl, rfl, rfl⟩
        | some d2 => exact ⟨rfl, modifyNodeAt_const_self hn, rfl⟩
    · exact ⟨rfl, rfl, rfl⟩

/-- C4 (amended): assigning `undefined` at a path whose current read is
`undefined` (in particular, into a container under a previously-absent
key) produces no notifications at all: the pending set, the dep tree and
the fired log are untouched and the diff reports unchanged (the last-step
old read `undefined` strictly equals the new `undefined`).  A diff of two
traversable containers where the new container introduces an absent key
holding `undefined`, by contrast, does report changed (see the
counterexample): the tolerance only prevents the entry loop from marking
the change, not the key-count check nor the per-key recursion. -/
theorem assign_undefined_at_absent_key (s : Store) (p : String)
    (hm : noMutatorB s p = true) (hInv : Inv s)
    (hread : (pureWalk s.heap s.data (tokensOf s (some p))).1 = .undef) :
    (_setAtPath s p .undef).pending = s.pending ∧
    (_setAtPath s p .undef).rootNode = s.rootNode ∧
    (_setAtPathCore s p .undef).2 = false := by
  unfold _setAtPath _setAtPathCore
  simp only []
  have hmz := getPathData_mutate_none hm
  rw [hmz]
  have hval : (if (_getPathData s p).1._noMutate = false then (Val.undef) else (Val.undef))
      = Val.undef := by
    split <;> rfl
  rw [hval]
  obtain ⟨hh, hd, hpend, hroot⟩ := getPathData_parts s p
  have hmain := setAtPathVal_undef_unchanged (_getPathData s p).1
    ((_getPathData s p).2.tokens) (Inv_getPathData p hInv)
    (by rw [hh, hd, getPathData_tokens]; exact hread)
  refine ⟨?_, ?_, hmain.2.2⟩
  · rw [hmain.1, hpend]
  · rw [hmain.2.1, hroot]

/-- Witness for C4 (amended): assigning `undefined` at the absent path
`"a.b"` of the empty store changes neither pending set nor dep tree and
reports unchanged. -/
theorem assign_undefined_at_absent_key_witness :
    noMutatorB exampleStore "a.b" = true ∧ Inv exampleStore ∧
    (pureWalk exampleStore.heap exampleStore.data
      (tokensOf exampleStore (some "a.b"))).1 = .undef ∧
    ((_setAtPath exampleStore "a.b" .undef).pending = exampleStore.pending ∧
     (_setAtPath exampleStore "a.b" .undef).rootNode = exampleStore.rootNode ∧
     (_setAtPathCore exampleStore "a.b" .undef).2 = false) :=
  ⟨by decide, by unfold Inv; rfl, by decide,
    assign_undefined_at_absent_key exampleStore "a.b" (by decide)
      (by unfold Inv; rfl) (by decide)⟩

end RStore

namespace RStore

def unseen (n : Nat) (seen : List Nat) : Nat :=
  match n with
  | 0 => 0
  | m + 1 => unseen m seen + (if m ∈ seen then 0 else 1)

theorem unseen_le (n : Nat) (seen : List Nat) : unseen n seen ≤ n := by
  induction n with
  | zero => exact Nat.le_refl 0
  | succ m ih =>
    unfold unseen
    split <;> omega

theorem unseen_anti {seen seen2 : List Nat} (hs : seen ⊆ seen2) (n : Nat) :
    unseen n seen2 ≤ unseen n seen := by
  induction n with
  | zero => exact Nat.le_refl 0
  | succ m ih =>
    unfold unseen
    by_cases hm : m ∈ seen
    · have : m ∈ seen2 := hs hm
      simp [hm, this]; omega
    · by_cases hm2 : m ∈ seen2 <;> simp [hm, hm2] <;> omega

theorem unseen_cons_lt {r n : Nat} {seen : List Nat} (hr : r < n) (hns : r ∉ seen) :
    unseen n (r :: seen) < unseen n seen := by
  induction n with
  | zero => omega
  | succ m ih =>
    unfold unseen
    rcases Nat.lt_succ_iff_lt_or_eq.mp hr with h | h
    · have h2 := ih h
      by_cases hm : m ∈ seen
      · have : m ∈ r :: seen := List.mem_cons_of_mem r hm
        simp [hm, this]; omega
      · by_cases hmr : m ∈ r :: seen <;> simp [hm, hmr] <;> omega
    · subst h
      have h1 : r ∈ r :: seen := List.mem_cons_self r seen
      have h2 := unseen_anti (List.subset_cons_self r seen) r
      simp [hns, h1]
      omega

theorem tcdFinish_seen (h : Heap) (dn : Option DepNode)
    (subs : Option (List (String × DepNode))) (newValue : Val)
    (changed nvt : Bool) (seen pending : List Nat) :
    (tcdFinish h dn subs newValue changed nvt seen pending).2.2.1 = seen := by
  unfold tcdFinish
  cases changed <;> simp

theorem subset_seenAdd (seen : List Nat) (v : Val) : seen ⊆ seenAdd seen v := by
  unfold seenAdd
  split
  · split
    · exact fun x hx => hx
    · exact List.subset_cons_self _ seen
  · exact fun x hx => hx

theorem tcdKeysGo_mono
    (f : Option DepNode → Val → Val → List Nat → List Nat →
      Option (Bool × Option DepNode × List Nat × List Nat))
    (h : Heap) (oldValue newValue : Val)
    (hf : ∀ dn o n sn p out, f dn o n sn p = some out → sn ⊆ out.2.2.1) :
    ∀ (keys : List String) (subs : Option (List (String × DepNode)))
      (changed : Bool) (sn p : List Nat)
      (out : Bool × Option (List (String × DepNode)) × List Nat × List Nat),
      tcdKeysGo f h oldValue newValue subs keys changed sn p = some out →
      sn ⊆ out.2.2.1 := by
  intro keys
  induction keys with
  | nil =>
    intro subs changed sn p out hk
    unfold tcdKeysGo at hk
    cases hk
    exact fun x hx => hx
  | cons k ks ih =>
    intro subs changed sn p out hk
    unfold tcdKeysGo at hk
    simp only [] at hk
    split at hk
    · split at hk
      · simp at hk
      · rename_i vck sdn2 seen2 pending2 hfc
        have h1 := hf _ _ _ _ _ _ hfc
        have h2 := ih _ _ _ _ _ hk
        exact List.Subset.trans h1 h2
    · exact ih _ _ _ _ _ hk

end RStore

namespace RStore

theorem trav_ref_lt {h : Heap} {r : Nat} (ht : isTraversableB h (.ref r) = true) :
    r < h.length := by
  by_contra hlt
  have hn : h[r]? = none := List.getElem?_eq_none (Nat.le_of_not_lt hlt)
  simp only [isTraversableB, hn] at ht
  exact Bool.false_ne_true ht

theorem trav_is_ref {h : Heap} {v : Val} (ht : isTraversableB h v = true) :
    ∃ r, v = .ref r := by
  cases v
  case ref r => exact ⟨r, rfl⟩
  all_goals simp [isTraversableB] at ht

theorem seenHas_false {seen : List Nat} {r : Nat} (hs : seenHas seen (.ref r) = false) :
    r ∉ seen := by
  unfold seenHas at hs
  simpa using hs

theorem seenAdd_ref_not_mem {seen : List Nat} {r : Nat} (hr : r ∉ seen) :
    seenAdd seen (.ref r) = r :: seen := by
  unfold seenAdd
  simp [hr]

theorem ifKeysGo_mono
    (f : Option DepNode → Val → Val → List Nat → List Nat →
      Option (Bool × Option DepNode × List Nat × List Nat))
    (h : Heap) (o n : Val)
    (hf : ∀ dn ov nv sn p out, f dn ov nv sn p = some out → sn ⊆ out.2.2.1)
    (c : Bool) (subs : Option (List (String × DepNode))) (keys : List String)
    (ch ch2 : Bool) (subs2 : Option (List (String × DepNode)))
    (sn p : List Nat)
    (out : Bool × Option (List (String × DepNode)) × List Nat × List Nat)
    (hk : (if c = true then tcdKeysGo f h o n subs keys ch sn p
           else some (ch2, subs2, sn, p)) = some out) :
    sn ⊆ out.2.2.1 := by
  cases c with
  | true =>
    rw [if_pos rfl] at hk
    exact tcdKeysGo_mono f h o n hf _ _ _ _ _ _ hk
  | false =>
    rw [if_neg (by simp)] at hk
    cases hk
    exact fun x hx => hx

theorem tcdF_mono : ∀ (fuel : Nat) (h : Heap) (dn : Option DepNode)
    (oldValue newValue : Val) (sn p : List Nat)
    (out : Bool × Option DepNode × List Nat × List Nat),
    tcdF fuel h dn oldValue newValue sn p = some out → sn ⊆ out.2.2.1 := by
  intro fuel
  induction fuel with
  | zero =>
    intro h dn o n sn p out hk
    simp [tcdF] at hk
  | succ fuel ih =>
    intro h dn o n sn p out hk
    unfold tcdF at hk
    simp only [] at hk
    split at hk
    · cases hk
      rw [tcdFinish_seen]
      exact fun x hx => hx
    · split at hk
      · cases hk
        rw [tcdFinish_seen]
        exact fun x hx => hx
      · split at hk
        · split at hk
          · cases hk
            rw [tcdFinish_seen]
            exact fun x hx => hx
          · split at hk
            · split at hk
              · simp at hk
              · rename_i c2 subs2 sn3 p2 heq
                cases hk
                rw [tcdFinish_seen]
                have hbase : sn ⊆ seenAdd (seenAdd sn o) n :=
                  List.Subset.trans (subset_seenAdd sn o)
                    (subset_seenAdd (seenAdd sn o) n)
                exact List.Subset.trans hbase
                  (ifKeysGo_mono (tcdF fuel h) h o n
                    (fun dn o n sn p out hk => ih h dn o n sn p out hk)
                    _ _ _ _ _ _ _ _ _ heq)
            · split at hk
              · simp at hk
              · rename_i c2 subs2 sn2 p2 heq
                cases hk
                rw [tcdFinish_seen]
                have hbase : sn ⊆ seenAdd sn o := subset_seenAdd sn o
                exact List.Subset.trans hbase
                  (ifKeysGo_mono (tcdF fuel h) h o n
                    (fun dn o n sn p out hk => ih h dn o n sn p out hk)
                    _ _ _ _ _ _ _ _ _ heq)
        · cases hk
          rw [tcdFinish_seen]
          exact fun x hx => hx

end RStore

namespace RStore

theorem tcdKeysGo_isSome
    (f : Option DepNode → Val → Val → List Nat → List Nat →
      Option (Bool × Option DepNode × List Nat × List Nat))
    (h : Heap) (oldValue newValue : Val) (B : Nat)
    (hfS : ∀ dn ov nv sn p, unseen h.length sn < B → (f dn ov nv sn p).isSome = true)
    (hfM : ∀ dn ov nv sn p out, f dn ov nv sn p = some out → sn ⊆ out.2.2.1) :
    ∀ (keys : List String) (subs : Option (List (String × DepNode)))
      (changed : Bool) (sn p : List Nat), unseen h.length sn < B →
      (tcdKeysGo f h oldValue newValue subs keys changed sn p).isSome = true := by
  intro keys
  induction keys with
  | nil =>
    intro subs changed sn p hB
    unfold tcdKeysGo
    rfl
  | cons k ks ih =>
    intro subs changed sn p hB
    unfold tcdKeysGo
    simp only []
    split
    · split
      · rename_i heq
        exact absurd heq (Option.isSome_iff_ne_none.mp (hfS _ _ _ _ _ hB))
      · rename_i vck sdn2 seen2 pending2 heq
        have hsub := hfM _ _ _ _ _ _ heq
        have hB2 : unseen h.length seen2 < B :=
          Nat.lt_of_le_of_lt (unseen_anti hsub h.length) hB
        exact ih _ _ _ _ hB2
    · exact ih _ _ _ _ hB

theorem ifKeysGo_none_false
    (f : Option DepNode → Val → Val → List Nat → List Nat →
      Option (Bool × Option DepNode × List Nat × List Nat))
    (h : Heap) (o n : Val) (B : Nat)
    (hfS : ∀ dn ov nv sn p, unseen h.length sn < B → (f dn ov nv sn p).isSome = true)
    (hfM : ∀ dn ov nv sn p out, f dn ov nv sn p = some out → sn ⊆ out.2.2.1)
    (c : Bool) (subs : Option (List (String × DepNode))) (keys : List String)
    (ch ch2 : Bool) (subs2 : Option (List (String × DepNode)))
    (sn p : List Nat)
    (hk : (if c = true then tcdKeysGo f h o n subs keys ch sn p
           else some (ch2, subs2, sn, p)) = none)
    (hB : unseen h.length sn < B) : False := by
  cases c with
  | true =>
    rw [if_pos rfl] at hk
    have := tcdKeysGo_isSome f h o n B hfS hfM keys subs ch sn p hB
    rw [hk] at this
    simp at this
  | false =>
    rw [if_neg (by simp)] at hk
    simp at hk

theorem tcdF_isSome : ∀ (fuel : Nat) (h : Heap) (dn : Option DepNode)
    (oldValue newValue : Val) (sn p : List Nat),
    unseen h.length sn < fuel →
    (tcdF fuel h dn oldValue newValue sn p).isSome = true := by
  intro fuel
  induction fuel with
  | zero =>
    intro h dn o n sn p hB
    exact absurd hB (Nat.not_lt_zero _)
  | succ fuel ih =>
    intro h dn o n sn p hB
    unfold tcdF
    simp only []
    split
    · rfl
    · split
      · rfl
      · split
        · rename_i htrav
          split
          · rfl
          · rename_i hseen
            simp only [Bool.or_eq_true, not_or, Bool.not_eq_true] at hseen
            have hfuel2 : ∀ sn2 : List Nat, seenAdd sn o ⊆ sn2 →
                unseen h.length sn2 < fuel := by
              intro sn2 hs2
              obtain ⟨r, hr⟩ := trav_is_ref htrav
              subst hr
              have hlt := trav_ref_lt htrav
              have hns : r ∉ sn := seenHas_false hseen.1
              have h1 : unseen h.length (seenAdd sn (.ref r)) < unseen h.length sn := by
                rw [seenAdd_ref_not_mem hns]
                exact unseen_cons_lt hlt hns
              have h2 := unseen_anti hs2 h.length
              omega
            split
            · split
              · rename_i heq
                exact (ifKeysGo_none_false (tcdF fuel h) h o n fuel
                  (fun dn ov nv sn2 p2 hB2 => ih h dn ov nv sn2 p2 hB2)
                  (fun dn ov nv sn2 p2 out hk => tcdF_mono fuel h dn ov nv sn2 p2 out hk)
                  _ _ _ _ _ _ _ _ heq
                  (hfuel2 _ (subset_seenAdd (seenAdd sn o) n))).elim
              · rfl
            · split
              · rename_i heq
                exact (ifKeysGo_none_false (tcdF fuel h) h o n fuel
                  (fun dn ov nv sn2 p2 hB2 => ih h dn ov nv sn2 p2 hB2)
                  (fun dn ov nv sn2 p2 out hk => tcdF_mono fuel h dn ov nv sn2 p2 out hk)
                  _ _ _ _ _ _ _ _ heq
                  (hfuel2 _ (fun x hx => hx))).elim
              · rfl
        · rfl

end RStore

namespace RStore

def cyclicHeap : Heap := [{ fields := [("a", Val.ref 0)] }, {}]

/-- C5: one top-level invocation of the diff engine always terminates: the
fuel `heap size + 1` used by `_triggerChangedDeps` is sufficient for every
input (cyclic containers included), because the per-invocation seen set
gains a fresh heap reference at every recursive descent, so the write path
never hits the out-of-fuel fallback; and whenever either side of a
comparison is already in the visited set, the engine returns immediately,
conservatively reporting `changed = true` without recursing further. -/
theorem diff_cycle_guard_terminates
    (h : Heap) (dn : Option DepNode) (oldValue newValue : Val)
    (seen pending : List Nat) :
    (∃ out, tcdF (h.length + 1) h dn oldValue newValue [] pending = some out ∧
        _triggerChangedDeps h dn oldValue newValue pending =
          (out.1, out.2.1, out.2.2.2)) ∧
    (useStrictEqualityCheck oldValue = false → oldValue ≠ newValue →
      isTraversableB h oldValue = true →
      (seenHas seen oldValue || seenHas seen newValue) = true →
      ∀ fuel, tcdF (fuel + 1) h dn oldValue newValue seen pending =
          some (tcdFinish h dn (Option.map DepNode.subDeps dn) newValue
            true false seen pending) ∧
        (tcdFinish h dn (Option.map DepNode.subDeps dn) newValue
            true false seen pending).1 = true) := by
  constructor
  · have hB : unseen h.length [] < h.length + 1 :=
      Nat.lt_succ_of_le (unseen_le h.length [])
    have hS := tcdF_isSome (h.length + 1) h dn oldValue newValue [] pending hB
    obtain ⟨out, hout⟩ := Option.isSome_iff_exists.mp hS
    obtain ⟨c, d, sn2, p2⟩ := out
    refine ⟨(c, d, sn2, p2), hout, ?_⟩
    unfold _triggerChangedDeps
    rw [hout]
  · intro hstrict hne htrav hseen fuel
    constructor
    · unfold tcdF
      simp only [hstrict, Bool.false_eq_true, if_false, hne, htrav, hseen,
        eq_self_iff_true, if_true]
    · rfl

/-- C5 witness: on the cyclic heap `[{a: ref 0}, {}]`, diffing the cyclic
container `ref 0` against `ref 1` with `0` already in the visited set
returns immediately with `changed = true`; the instantiation also records
that the top-level invocation on the empty seen set produced a result
within fuel. -/
theorem diff_cycle_guard_terminates_witness :
    tcdF 3 cyclicHeap none (.ref 0) (.ref 1) [0] [] =
      some (tcdFinish cyclicHeap none (Option.map DepNode.subDeps none) (.ref 1)
        true false [0] []) ∧
    (tcdFinish cyclicHeap none (Option.map DepNode.subDeps none) (.ref 1)
        true false [0] []).1 = true :=
  (diff_cycle_guard_terminates cyclicHeap none (.ref 0) (.ref 1) [0] []).2
    (by decide) (by decide) (by decide) (by decide) 2

end RStore

namespace RStore

theorem registerChangeCore_mono (c : DepCore) (v : Val) (p : List Nat) {x : Nat}
    (h : x ∈ p) : x ∈ (registerChangeCore c v p).2 := by
  obtain ⟨vd, ed, ex, em, ae⟩ := c
  unfold registerChangeCore
  cases vd <;> cases ed <;> cases em <;> simp only []
  all_goals (repeat' (first | split | apply addPending_mem_of_mem | dsimp only))
  all_goals exact h

theorem registerChangeCore_valueDep {c : DepCore} {d : Nat}
    (hd : c.valueDep = some d) (v : Val) (p : List Nat) :
    d ∈ (registerChangeCore c v p).2 := by
  obtain ⟨vd, ed, ex, em, ae⟩ := c
  have hvd : vd = some d := hd
  subst hvd
  unfold registerChangeCore
  cases ed <;> cases em <;> simp only []
  all_goals generalize hP : addPending d p = P
  all_goals (repeat' (first | split | apply addPending_mem_of_mem | dsimp only))
  all_goals exact hP ▸ addPending_self d p

theorem regParents_mono : ∀ (qs : List (List String)) (root : DepNode)
    (p : List Nat) {x : Nat}, x ∈ p → x ∈ (regParents root p qs).2 := by
  intro qs
  induction qs with
  | nil => intro root p x h; exact h
  | cons q qs' ih =>
    intro root p x h
    unfold regParents
    cases hn : nodeAt root q with
    | none =>
      simp only [hn]
      exact ih _ _ h
    | some n =>
      simp only [hn]
      exact ih _ _ (registerChangeCore_mono _ _ _ h)

theorem lookupDep_updateDep_self : ∀ {subs : List (String × DepNode)} {t : String}
    {d : DepNode}, lookupDep subs t = some d → ∀ (x : DepNode),
    lookupDep (updateDep subs t x) t = some x := by
  intro subs
  induction subs with
  | nil => intro t d h x; simp [lookupDep] at h
  | cons e rest ih =>
    intro t d h x
    obtain ⟨k, y⟩ := e
    unfold lookupDep at h
    unfold updateDep
    by_cases hk : k = t
    · rw [if_pos hk]
      unfold lookupDep
      rw [if_pos hk]
    · rw [if_neg hk] at h
      rw [if_neg hk]
      unfold lookupDep
      rw [if_neg hk]
      exact ih h x

theorem chainLen_le : ∀ (ps : List String) (subs : List (String × DepNode)),
    chainLen subs ps ≤ ps.length := by
  intro ps
  induction ps with
  | nil => intro subs; exact Nat.le_refl 0
  | cons t ps' ih =>
    intro subs
    unfold chainLen
    cases hl : lookupDep subs t with
    | none => simp
    | some dc =>
      have := ih dc.subDeps
      simp only [List.length_cons]
      omega

theorem chainLen_ge : ∀ (i : Nat) (ps : List String) (dn : DepNode) (n : DepNode),
    i ≤ ps.length → nodeAt dn (ps.take i) = some n →
    i ≤ chainLen dn.subDeps ps := by
  intro i
  induction i with
  | zero => intro ps dn n _ _; exact Nat.zero_le _
  | succ i ih =>
    intro ps dn n hlen hn
    cases ps with
    | nil => simp at hlen
    | cons t ps' =>
      have hlen' : i ≤ ps'.length := by simp at hlen; omega
      simp only [List.take_succ_cons] at hn
      unfold nodeAt at hn
      cases hl : lookupDep dn.subDeps t with
      | none => rw [hl] at hn; simp at hn
      | some dc =>
        rw [hl] at hn
        unfold chainLen
        simp only [hl]
        have := ih ps' dc n hlen' hn
        omega

theorem take_lt_split {α : Type} {l : List α} {j i : Nat} (hj : j < i)
    (hi : i ≤ l.length) : ∃ t ts, l.take i = l.take j ++ t :: ts := by
  have h1 : l.take i = l.take j ++ (l.drop j).take (i - j) := by
    rw [← List.take_add]
    congr 1
    omega
  cases hd : l.drop j with
  | nil =>
    have h2 : (l.drop j).length = l.length - j := List.length_drop j l
    rw [hd] at h2
    simp at h2
    omega
  | cons x xs =>
    rw [hd] at h1
    have hij : i - j = (i - j - 1) + 1 := by omega
    rw [hij] at h1
    exact ⟨x, xs.take (i - j - 1), by rw [h1]; rfl⟩

theorem take_extend_full {α : Type} {l : List α} {i : Nat} (hi : i < l.length) :
    ∃ t ts, l = l.take i ++ t :: ts := by
  cases hd : l.drop i with
  | nil =>
    have h2 : (l.drop i).length = l.length - i := List.length_drop i l
    rw [hd] at h2
    simp at h2
    omega
  | cons x xs =>
    exact ⟨x, xs, by rw [← hd, List.take_append_drop]⟩

end RStore

namespace RStore

theorem nodeAt_modify_keepSubs : ∀ (a : List String) (root : DepNode) (c2 : DepCore)
    (t : String) (ts : List String),
    nodeAt (modifyNodeAt root a (fun nd => .mk c2 nd.subDeps)) (a ++ t :: ts)
      = nodeAt root (a ++ t :: ts) := by
  intro a
  induction a with
  | nil =>
    intro root c2 t ts
    show nodeAt (.mk c2 root.subDeps) (t :: ts) = nodeAt root (t :: ts)
    unfold nodeAt
    simp only [DepNode.subDeps]
  | cons x a' ih =>
    intro root c2 t ts
    cases root with
    | mk c subs =>
      show nodeAt (modifyNodeAt (.mk c subs) (x :: a')
        (fun nd => .mk c2 nd.subDeps)) (x :: (a' ++ t :: ts))
        = nodeAt (.mk c subs) (x :: (a' ++ t :: ts))
      unfold modifyNodeAt
      cases hl : lookupDep subs x with
      | none => simp only [hl]
      | some dc =>
        simp only [hl]
        unfold nodeAt
        simp only [DepNode.subDeps]
        rw [lookupDep_updateDep_self hl, hl]
        exact ih dc c2 t ts

theorem nodeAt_modify_longer_aux : ∀ (q : List String) (root : DepNode) (t : String)
    (ts : List String) (f : DepNode → DepNode) (n : DepNode),
    nodeAt root q = some n →
    ∃ n2, nodeAt (modifyNodeAt root (q ++ t :: ts) f) q = some n2 ∧
      n2.core = n.core := by
  intro q
  induction q with
  | nil =>
    intro root t ts f n hn
    have hrn : root = n := Option.some.inj hn
    subst hrn
    cases root with
    | mk c subs =>
      refine ⟨modifyNodeAt (.mk c subs) (t :: ts) f, rfl, ?_⟩
      unfold modifyNodeAt
      cases hl : lookupDep subs t <;> simp only [hl] <;> rfl
  | cons x q' ih =>
    intro root t ts f n hn
    cases root with
    | mk c subs =>
      unfold nodeAt at hn
      simp only [DepNode.subDeps] at hn
      cases hl : lookupDep subs x with
      | none => rw [hl] at hn; simp at hn
      | some dc =>
        rw [hl] at hn
        obtain ⟨n2, hn2, hc2⟩ := ih dc t ts f n hn
        refine ⟨n2, ?_, hc2⟩
        show nodeAt (modifyNodeAt (.mk c subs) (x :: (q' ++ t :: ts)) f) (x :: q')
          = some n2
        unfold modifyNodeAt
        simp only [hl]
        unfold nodeAt
        simp only [DepNode.subDeps]
        rw [lookupDep_updateDep_self hl]
        exact hn2

theorem nodeAt_modify_longer (q path : List String) (root : DepNode)
    (f : DepNode → DepNode) (n : DepNode)
    (hpq : ∃ t ts, path = q ++ t :: ts) (hn : nodeAt root q = some n) :
    ∃ n2, nodeAt (modifyNodeAt root path f) q = some n2 ∧ n2.core = n.core := by
  obtain ⟨t, ts, rfl⟩ := hpq
  exact nodeAt_modify_longer_aux q root t ts f n hn

theorem regParents_fires :
    ∀ (qs : List (List String)) (root : DepNode) (pending : List Nat)
      (q : List String) (n : DepNode) (d : Nat),
      q ∈ qs →
      (∀ a ∈ qs, a = q ∨ (∃ t ts, q = a ++ t :: ts) ∨ (∃ t ts, a = q ++ t :: ts)) →
      nodeAt root q = some n → n.core.valueDep = some d →
      d ∈ (regParents root pending qs).2 := by
  intro qs
  induction qs with
  | nil =>
    intro root pending q n d hq _ _ _
    simp at hq
  | cons a qs' ih =>
    intro root pending q n d hq htri hn hd
    rcases htri a (List.mem_cons_self a qs') with heq | ⟨t, ts, hpre⟩ | ⟨t, ts, hext⟩
    · subst heq
      unfold regParents
      simp only [hn]
      exact regParents_mono _ _ _ (registerChangeCore_valueDep hd _ _)
    · have hne : q ≠ a := by
        intro he
        rw [← he] at hpre
        have := congrArg List.length hpre
        simp at this
      have hq' : q ∈ qs' := by
        rcases List.mem_cons.mp hq with h | h
        · exact absurd h hne
        · exact h
      unfold regParents
      cases hna : nodeAt root a with
      | none =>
        simp only [hna]
        exact ih _ _ _ _ _ hq' (fun b hb => htri b (List.mem_cons_of_mem a hb)) hn hd
      | some m =>
        simp only [hna]
        refine ih _ _ _ _ _ hq' (fun b hb => htri b (List.mem_cons_of_mem a hb)) ?_ hd
        rw [hpre, nodeAt_modify_keepSubs, ← hpre]
        exact hn
    · have hne : q ≠ a := by
        intro he
        rw [← he] at hext
        have := congrArg List.length hext
        simp at this
      have hq' : q ∈ qs' := by
        rcases List.mem_cons.mp hq with h | h
        · exact absurd h hne
        · exact h
      unfold regParents
      cases hna : nodeAt root a with
      | none =>
        simp only [hna]
        exact ih _ _ _ _ _ hq' (fun b hb => htri b (List.mem_cons_of_mem a hb)) hn hd
      | some m =>
        simp only [hna]
        obtain ⟨n2, hn2, hc2⟩ := nodeAt_modify_longer q a root
          (fun nd => DepNode.mk (registerChangeCore m.core objectCtorV pending).1
            nd.subDeps) n ⟨t, ts, hext⟩ hn
        refine ih _ _ _ _ _ hq' (fun b hb => htri b (List.mem_cons_of_mem a hb)) hn2 ?_
        rw [hc2]
        exact hd

end RStore

namespace RStore

theorem setAtPathVal_notifies_parents
    (s : Store) (tokens : List String) (v : Val) (i : Nat) (nd : DepNode) (d : Nat)
    (hi : i < tokens.length)
    (hn : nodeAt s.rootNode (tokens.take i) = some nd)
    (hd : nd.core.valueDep = some d) :
    (_setAtPathVal s tokens v).2 = true →
    d ∈ (_setAtPathVal s tokens v).1.pending := by
  unfold _setAtPathVal
  simp only []
  split
  · intro hch; simp at hch
  · split
    · intro hch; simp at hch
    · rename_i s2 heq
      have hroot : s2.rootNode = s.rootNode := by
        split at heq
        · cases heq; rfl
        · split at heq
          · cases heq
          · cases heq; rfl
      split
      · rename_i rRoot parents lastT hdata hsplit
        have htok : tokens = parents ++ [lastT] := splitLast_append hsplit
        have hplen : i ≤ parents.length := by
          have h2 := hi
          rw [htok] at h2
          simp at h2
          omega
        have htake : tokens.take i = parents.take i := by
          rw [htok]
          exact List.take_append_of_le_length hplen
        split
        · intro hch; simp at hch
        · rename_i h1 pRef es hwalk
          have hcl : i ≤ chainLen s2.rootNode.subDeps parents := by
            apply chainLen_ge i parents s2.rootNode nd hplen
            rw [← htake, hroot]
            exact hn
          have htri : ∀ a ∈ prefixList tokens (chainLen s2.rootNode.subDeps parents),
              a = tokens.take i ∨ (∃ t ts, tokens.take i = a ++ t :: ts) ∨
              (∃ t ts, a = tokens.take i ++ t :: ts) := by
            intro a ha
            unfold prefixList at ha
            obtain ⟨j, hj, rfl⟩ := List.mem_map.mp ha
            have hj' : j ≤ chainLen s2.rootNode.subDeps parents := by
              have := List.mem_range.mp hj
              omega
            have hjlen : j ≤ tokens.length := by
              have h1 := chainLen_le parents s2.rootNode.subDeps
              have h2 : tokens.length = parents.length + 1 := by rw [htok]; simp
              omega
            rcases Nat.lt_trichotomy j i with h | h | h
            · exact Or.inr (Or.inl (take_lt_split h (Nat.le_of_lt hi)))
            · exact Or.inl (by rw [h])
            · exact Or.inr (Or.inr (take_lt_split h hjlen))
          have hmem : tokens.take i
              ∈ prefixList tokens (chainLen s2.rootNode.subDeps parents) := by
            unfold prefixList
            exact List.mem_map.mpr ⟨i, List.mem_range.mpr (by omega), rfl⟩
          obtain ⟨t0, ts0, hdec⟩ := take_extend_full (l := tokens) hi
          split
          · split
            · intro _
              show d ∈ (regParents _ _ _).2
              dsimp only
              split
              · rename_i c subsF hnode
                obtain ⟨n2, hn2, hc2⟩ := nodeAt_modify_longer (tokens.take i) tokens
                  s2.rootNode _ nd ⟨t0, ts0, hdec⟩ (by rw [hroot]; exact hn)
                refine regParents_fires _ _ _ _ _ _ hmem htri hn2 ?_
                rw [hc2]
                exact hd
              · refine regParents_fires _ _ _ _ _ _ hmem htri ?_ hd
                rw [hroot]
                exact hn
            · intro hch; simp at hch
          · split
            · intro _
              show d ∈ (regParents _ _ _).2
              dsimp only
              split
              · rename_i d2 hnode
                obtain ⟨n2, hn2, hc2⟩ := nodeAt_modify_longer (tokens.take i) tokens
                  s2.rootNode _ nd ⟨t0, ts0, hdec⟩ (by rw [hroot]; exact hn)
                refine regParents_fires _ _ _ _ _ _ hmem htri hn2 ?_
                rw [hc2]
                exact hd
              · refine regParents_fires _ _ _ _ _ _ hmem htri ?_ hd
                rw [hroot]
                exact hn
            · intro hch; simp at hch
      · intro hch; simp at hch

end RStore

namespace RStore

/-- A store with a reactive reader already registered on the parent path
`a` (its DepNode's `valueDep` is dep id 5). -/
def parentDepStore : Store :=
  { heap := [emptyObj], data := .ref 0, _isTraversable := true,
    rootNode := .mk {} [("a", DepNode.mk { valueDep := some 5 } [])],
    nextDep := 6 }

/-- C6: when a write through `_setAtPath` reports a change (its final
verdict is true), every ancestor DepNode reached by the dependency-tree
walk towards the target path — any proper prefix of the path's tokens
holding a registered `valueDep` — has that dep queued in the resulting
pending set, so a reader of an ancestor path is woken by any descendant
mutation. -/
theorem setAtPath_notifies_ancestors
    (s : Store) (path : String) (v : Val) (i : Nat) (nd : DepNode) (d : Nat)
    (hch : (_setAtPathCore s path v).2 = true)
    (hi : i < (tokensOf s (some path)).length)
    (hn : nodeAt s.rootNode ((tokensOf s (some path)).take i) = some nd)
    (hd : nd.core.valueDep = some d) :
    d ∈ (_setAtPath s path v).pending := by
  unfold _setAtPath
  unfold _setAtPathCore at hch ⊢
  simp only [] at hch ⊢
  have htk := getPathData_tokens s path
  have hparts := getPathData_parts s path
  exact setAtPathVal_notifies_parents _ _ _ i nd d
    (by rw [htk]; exact hi)
    (by rw [htk, hparts.2.2.2]; exact hn)
    hd hch

/-- C6 witness: with a `valueDep` (id 5) registered on path `a`, the
write `_setAtPath "a.b" 1` queues dep 5. -/
theorem setAtPath_notifies_ancestors_witness :
    5 ∈ (_setAtPath parentDepStore "a.b" (.num 1)).pending :=
  setAtPath_notifies_ancestors parentDepStore "a.b" (.num 1) 1
    (DepNode.mk { valueDep := some 5 } []) 5
    (by decide) (by decide) rfl rfl

end RStore

namespace RStore

theorem splitDotAux_ne_nil : ∀ (l : List Char) (cur : List Char),
    splitDotAux cur l ≠ [] := by
  intro l
  induction l with
  | nil => intro cur; simp [splitDotAux]
  | cons c cs ih =>
    intro cur
    unfold splitDotAux
    split
    · simp
    · exact ih (c :: cur)

theorem splitDot_ne_nil (p : String) : splitDot p ≠ [] :=
  splitDotAux_ne_nil p.data []

theorem splitLast_isSome : ∀ (ts : List String), ts ≠ [] →
    ∃ ps t, splitLast ts = some (ps, t) := by
  intro ts
  induction ts with
  | nil => intro h; exact absurd rfl h
  | cons a rest ih =>
    intro _
    cases rest with
    | nil => exact ⟨[], a, rfl⟩
    | cons b rest2 =>
      obtain ⟨ps, t, hs⟩ := ih (by simp)
      refine ⟨a :: ps, t, ?_⟩
      unfold splitLast
      rw [hs]
      rfl

theorem travRef_none {h : Heap} {v : Val} (ht : travRef h v = none) :
    isTraversableB h v = false := by
  cases v with
  | ref r =>
    have ht2 : (if isTraversableB h (.ref r) = true then some r else none) = none := ht
    by_cases htr : isTraversableB h (.ref r) = true
    · rw [if_pos htr] at ht2
      cases ht2
    · simpa using htr
  | undef => rfl
  | null => rfl
  | num n => rfl
  | str s => rfl
  | bool b => rfl
  | sym i => rfl
  | fn i a => rfl

theorem walkParents_unset_heap : ∀ (ps : List String) {h : Heap} {r : Nat}
    {out : Heap × Nat × List (Nat × String)},
    walkParents h r true ps = some out → out.1 = h := by
  intro ps
  induction ps with
  | nil =>
    intro h r out hw
    unfold walkParents at hw
    cases hw
    rfl
  | cons t ps' ih =>
    intro h r out hw
    rw [walkParents] at hw
    cases htr : travRef h (objRead h r t) with
    | none => rw [htr] at hw; simp at hw
    | some r2 =>
      rw [htr] at hw
      simp only [] at hw
      cases hw2 : walkParents h r2 true ps' with
      | none => rw [hw2] at hw; simp at hw
      | some q =>
        rw [hw2] at hw
        simp only [Option.map] at hw
        have hq := Option.some.inj hw
        have := ih hw2
        rw [← hq]
        exact this

theorem lookupField_removeF_self : ∀ (fl : List (String × Val)) (t : String),
    lookupField (removeF fl t) t = none := by
  intro fl
  induction fl with
  | nil => intro t; rfl
  | cons e rest ih =>
    intro t
    obtain ⟨k, v⟩ := e
    unfold removeF at ih ⊢
    rw [List.filter_cons]
    by_cases hk : k = t
    · rw [if_neg (by simp [hk])]
      exact ih t
    · rw [if_pos (by simp [hk])]
      unfold lookupField
      rw [if_neg hk]
      exact ih t

theorem lookupField_removeF_other : ∀ (fl : List (String × Val)) (t t' : String),
    t' ≠ t → lookupField (removeF fl t) t' = lookupField fl t' := by
  intro fl
  induction fl with
  | nil => intro t t' _; rfl
  | cons e rest ih =>
    intro t t' hne
    obtain ⟨k, v⟩ := e
    unfold removeF at ih ⊢
    rw [List.filter_cons]
    by_cases hk : k = t
    · rw [if_neg (by simp [hk])]
      have hstep : lookupField ((k, v) :: rest) t'
          = if k = t' then some v else lookupField rest t' := rfl
      rw [hstep, if_neg (fun he => hne (by rw [← he]; exact hk))]
      exact ih t t' hne
    · rw [if_pos (by simp [hk])]
      unfold lookupField
      by_cases hk2 : k = t'
      · rw [if_pos hk2, if_pos hk2]
      · rw [if_neg hk2, if_neg hk2]
        exact ih t t' hne

theorem removeField_enumF_self (h : Heap) (r : Nat) (t : String) :
    enumF (removeField h r t) r t = false := by
  unfold removeField
  cases hl : h[r]? with
  | none => simp only [enumF, hl]
  | some o =>
    have hr : r < h.length := (List.getElem?_eq_some.mp hl).1
    unfold enumF
    rw [List.getElem?_set_eq hr]
    simp [lookupField_removeF_self]

end RStore

namespace RStore

theorem removeField_agree {h : Heap} {r : Nat} {t : String} {r' : Nat} {t' : String}
    (hne : ¬(r' = r ∧ t' = t)) :
    objRead (removeField h r t) r' t' = objRead h r' t' ∧
    enumF (removeField h r t) r' t' = enumF h r' t' := by
  unfold removeField
  cases hl : h[r]? with
  | none => exact ⟨rfl, rfl⟩
  | some o =>
    have hr : r < h.length := (List.getElem?_eq_some.mp hl).1
    by_cases hrr : r' = r
    · subst hrr
      have ht : t' ≠ t := fun he => hne ⟨rfl, he⟩
      unfold objRead enumF
      rw [List.getElem?_set_eq hr, hl]
      simp only []
      constructor
      · rw [lookupField_removeF_other o.fields t t' ht]
      · rw [lookupField_removeF_other o.fields t t' ht]
    · unfold objRead enumF
      rw [List.getElem?_set_ne (fun he => hrr he.symm)]
      exact ⟨rfl, rfl⟩

theorem pureWalk_false_undef : ∀ (ts : List String) (h : Heap) (v : Val),
    (pureWalk h v ts).2 = false → (pureWalk h v ts).1 = .undef := by
  intro ts
  induction ts with
  | nil =>
    intro h v hf
    simp [pureWalk] at hf
  | cons t ts' ih =>
    intro h v hf
    unfold pureWalk at hf ⊢
    by_cases hc : (isTraversableB h v && enumVal h v t) = true
    · rw [if_pos hc] at hf ⊢
      exact ih _ _ hf
    · rw [if_neg hc] at hf ⊢

theorem pureWalk_nontrav : ∀ (ts : List String) (h : Heap) (v : Val),
    ts ≠ [] → isTraversableB h v = false → (pureWalk h v ts).2 = false := by
  intro ts h v hne hnt
  cases ts with
  | nil => exact absurd rfl hne
  | cons a rest =>
    unfold pureWalk
    rw [if_neg (by rw [hnt]; simp)]

theorem walkParents_none_pureWalk : ∀ (ps : List String) (h : Heap) (r : Nat)
    (lastT : String), isTraversableB h (.ref r) = true →
    walkParents h r true ps = none →
    (pureWalk h (.ref r) (ps ++ [lastT])).2 = false := by
  intro ps
  induction ps with
  | nil =>
    intro h r lastT htrav hw
    unfold walkParents at hw
    cases hw
  | cons t ps' ih =>
    intro h r lastT htrav hw
    rw [walkParents] at hw
    show (pureWalk h (.ref r) (t :: (ps' ++ [lastT]))).2 = false
    cases htr : travRef h (objRead h r t) with
    | some r2 =>
      rw [htr] at hw
      simp only [] at hw
      cases hw2 : walkParents h r2 true ps' with
      | some q => rw [hw2] at hw; simp at hw
      | none =>
        obtain ⟨hread, htrav2⟩ := travRef_some htr
        have henu : enumF h r t = true :=
          enumF_true_of_objRead (by rw [hread]; exact fun he => Val.noConfusion he)
        unfold pureWalk
        rw [if_pos (by rw [htrav]; simpa [enumVal] using henu)]
        have hrv : readVal h (.ref r) t = .ref r2 := by
          show objRead h r t = .ref r2
          exact hread
        rw [hrv]
        exact ih h r2 lastT htrav2 hw2
    | none =>
      have hnt : isTraversableB h (objRead h r t) = false := travRef_none htr
      unfold pureWalk
      by_cases henu : enumVal h (.ref r) t = true
      · rw [if_pos (by rw [htrav]; simpa using henu)]
        have hrv : readVal h (.ref r) t = objRead h r t := rfl
        rw [hrv]
        exact pureWalk_nontrav _ _ _ (by simp) hnt
      · have hef : enumVal h (.ref r) t = false := by
          cases he : enumVal h (.ref r) t
          · rfl
          · exact absurd he henu
        rw [if_neg (by rw [hef]; simp)]

theorem pureWalk_removed_edge : ∀ (ps : List String) (h h2 : Heap) (r pRef : Nat)
    (lastT : String) (es : List (Nat × String)),
    isTraversableB h (.ref r) = true →
    walkParents h r true ps = some (h, pRef, es) →
    (∀ v, isTraversableB h2 v = isTraversableB h v) →
    (∀ r' t', ¬(r' = pRef ∧ t' = lastT) →
      objRead h2 r' t' = objRead h r' t' ∧ enumF h2 r' t' = enumF h r' t') →
    enumF h2 pRef lastT = false →
    (pureWalk h2 (.ref r) (ps ++ [lastT])).2 = false := by
  intro ps
  induction ps with
  | nil =>
    intro h h2 r pRef lastT es htrav hw hag1 hag2 hend
    unfold walkParents at hw
    have hq := Option.some.inj hw
    have hr : r = pRef := congrArg (fun x => x.2.1) hq
    subst hr
    show (pureWalk h2 (.ref r) [lastT]).2 = false
    unfold pureWalk
    rw [if_neg (by simp [enumVal, hend])]
  | cons t ps' ih =>
    intro h h2 r pRef lastT es htrav hw hag1 hag2 hend
    rw [walkParents] at hw
    show (pureWalk h2 (.ref r) (t :: (ps' ++ [lastT]))).2 = false
    cases htr : travRef h (objRead h r t) with
    | none => rw [htr] at hw; simp at hw
    | some r2 =>
      rw [htr] at hw
      simp only [] at hw
      cases hw2 : walkParents h r2 true ps' with
      | none => rw [hw2] at hw; simp at hw
      | some q =>
        rw [hw2] at hw
        simp only [Option.map] at hw
        have hq := Option.some.inj hw
        have hq1 : q.1 = h := congrArg (fun x => x.1) hq
        have hq2 : q.2.1 = pRef := congrArg (fun x => x.2.1) hq
        obtain ⟨hread, htrav2⟩ := travRef_some htr
        by_cases hrt : r = pRef ∧ t = lastT
        · unfold pureWalk
          rw [if_neg ?_]
          simp only [enumVal]
          rw [hrt.1, hrt.2, hend]
          simp
        · have hag := hag2 r t hrt
          have henu : enumF h r t = true :=
            enumF_true_of_objRead (by rw [hread]; exact fun he => Val.noConfusion he)
          unfold pureWalk
          rw [if_pos (by rw [hag1, htrav]; simp [enumVal, hag.2, henu])]
          have hrv : readVal h2 (.ref r) t = .ref r2 := by
            show objRead h2 r t = .ref r2
            rw [hag.1, hread]
          rw [hrv]
          have hw2' : walkParents h r2 true ps' = some (h, pRef, q.2.2) := by
            rw [hw2]
            rw [← hq1, ← hq2]
          exact ih h h2 r2 pRef lastT q.2.2 htrav2 hw2' hag1 hag2 hend

end RStore

namespace RStore

theorem setAtPathVal_pathData (s : Store) (tks : List String) (v : Val) :
    (_setAtPathVal s tks v).1._pathData = s._pathData := by
  unfold _setAtPathVal
  simp only []
  split
  · rfl
  · split
    · rfl
    · rename_i s2 heq
      have hs2 : s2._pathData = s._pathData := by
        split at heq
        · cases heq; rfl
        · split at heq
          · cases heq
          · cases heq; rfl
      split
      · split
        · exact hs2
        · split
          · split
            · exact hs2
            · exact hs2
          · split
            · exact hs2
            · exact hs2
      · exact hs2

theorem watchChanges_parts (op : Store → Store) (s : Store) :
    (_watchChanges op s).heap = (op { s with opCount := s.opCount + 1 }).heap ∧
    (_watchChanges op s).data = (op { s with opCount := s.opCount + 1 }).data ∧
    (_watchChanges op s)._pathData
      = (op { s with opCount := s.opCount + 1 })._pathData ∧
    (_watchChanges op s)._isTraversable
      = (op { s with opCount := s.opCount + 1 })._isTraversable := by
  unfold _watchChanges
  simp only []
  split
  · exact ⟨rfl, rfl, rfl, rfl⟩
  · exact ⟨rfl, rfl, rfl, rfl⟩

theorem lookupPD_append : ∀ (l : List (String × PathData)) (q : String)
    (pd : PathData) (p : String), lookupPD l p = none →
    lookupPD (l ++ [(q, pd)]) p = if q = p then some pd else none := by
  intro l
  induction l with
  | nil =>
    intro q pd p _
    show (if q = p then some pd else lookupPD [] p) = if q = p then some pd else none
    rfl
  | cons e rest ih =>
    intro q pd p hl
    obtain ⟨k, v⟩ := e
    unfold lookupPD at hl
    by_cases hk : k = p
    · rw [if_pos hk] at hl
      cases hl
    · rw [if_neg hk] at hl
      show (if k = p then some v else lookupPD (rest ++ [(q, pd)]) p) = _
      rw [if_neg hk]
      exact ih q pd p hl

theorem getPathData_clean_entry (s : Store) (P : String)
    (hclean : cleanPathDataB s P = true) :
    ∃ pd, lookupPD (_getPathData s P).1._pathData P = some pd ∧
      pd.mutate = none ∧ pd.tokens ≠ [] ∧ (_getPathData s P).2 = pd := by
  unfold cleanPathDataB noMutatorB tokensOkB at hclean
  unfold _getPathData
  cases hl : lookupPD s._pathData P with
  | some pd =>
    rw [hl] at hclean
    simp at hclean
    exact ⟨pd, hl, Option.isNone_iff_eq_none.mp (by simp [hclean.1]), by
      intro he
      rw [he] at hclean
      simp at hclean, rfl⟩
  | none =>
    refine ⟨{ tokens := splitDot P }, ?_, rfl, splitDot_ne_nil P, rfl⟩
    show lookupPD (s._pathData ++ [(P, { tokens := splitDot P })]) P = _
    rw [lookupPD_append s._pathData P _ P hl]
    rw [if_pos rfl]

theorem getPathData_found {s : Store} {p : String} {pd : PathData}
    (hl : lookupPD s._pathData p = some pd) : _getPathData s p = (s, pd) := by
  unfold _getPathData
  rw [hl]

end RStore

namespace RStore

theorem has_val (s : Store) (tracked : Bool) (p : String) :
    (has s tracked p).2 = (pureWalk s.heap s.data (tokensOf s (some p))).2 := by
  have hparts := getPathData_parts s p
  have htk := getPathData_tokens s p
  unfold has _findProperty
  simp only []
  rw [hparts.1, hparts.2.1, htk]
  split
  · split
    · split
      · rfl
      · rfl
    · rfl
  · rfl

theorem get_val (s : Store) (tracked : Bool) (p : String) :
    (get s tracked (some p)).2
      = (pureWalk s.heap s.data (tokensOf s (some p))).1 := by
  have hparts := getPathData_parts s p
  have htk := getPathData_tokens s p
  unfold get _findProperty
  simp only []
  rw [hparts.1, hparts.2.1, htk]
  split
  · split
    · split
      · rfl
      · rfl
    · rfl
  · rfl

theorem setAtPathVal_delete_walk (st : Store) (tks : List String)
    (hne : tks ≠ []) (hInv : Inv st) (hflag : st._isTraversable = true) :
    (pureWalk (_setAtPathVal st tks deleteV).1.heap
      (_setAtPathVal st tks deleteV).1.data tks).2 = false ∧
    (_setAtPathVal st tks deleteV).1._pathData = st._pathData := by
  have htrav : isTraversableB st.heap st.data = true := by
    rw [← hInv]; exact hflag
  obtain ⟨rRoot, hdata⟩ := trav_is_ref htrav
  obtain ⟨parents, lastT, hsl⟩ := splitLast_isSome tks hne
  have htok : tks = parents ++ [lastT] := splitLast_append hsl
  have htravR : isTraversableB st.heap (.ref rRoot) = true := by
    rw [← hdata]; exact htrav
  unfold _setAtPathVal
  simp only []
  rw [if_neg (by decide : ¬((deleteV : Val) = cancelV))]
  simp only [hflag, eq_self_iff_true, if_true, decide_True, hdata, hsl]
  cases hw : walkParents st.heap rRoot true parents with
  | none =>
    simp only [hw]
    constructor
    · rw [hdata, htok]
      exact walkParents_none_pureWalk parents st.heap rRoot lastT htravR hw
    · trivial
  | some out =>
    obtain ⟨h1, pRef, es⟩ := out
    have hh1 : h1 = st.heap := walkParents_unset_heap parents hw
    subst hh1
    simp only [hw]
    by_cases henum : enumF st.heap pRef lastT = true
    · rw [if_pos henum]
      constructor
      · show (pureWalk (removeField st.heap pRef lastT) (Val.ref rRoot) tks).2
          = false
        rw [htok]
        exact pureWalk_removed_edge parents st.heap
          (removeField st.heap pRef lastT) rRoot pRef lastT es htravR hw
          (fun v => isTrav_removeField st.heap pRef lastT v)
          (fun r' t' hne2 => removeField_agree hne2)
          (removeField_enumF_self st.heap pRef lastT)
      · trivial
    · rw [if_neg henum]
      have henumf : enumF st.heap pRef lastT = false := by
        cases hb : enumF st.heap pRef lastT
        · rfl
        · exact absurd hb henum
      constructor
      · show (pureWalk st.heap (Val.ref rRoot) tks).2 = false
        rw [htok]
        exact pureWalk_removed_edge parents st.heap st.heap rRoot pRef lastT es
          htravR hw (fun v => rfl) (fun r' t' _ => ⟨rfl, rfl⟩) henumf
      · trivial

end RStore

namespace RStore

/-- The mutator of the C7 counterexample: rewrite the DELETE sentinel
into the number 5 (the JS `mutate` hook may return any value). -/
def deleteRewriteMut : PathData :=
  { tokens := ["a"], mutate := some (fun v => if v = deleteV then .num 5 else v) }

/-- A store with the DELETE-rewriting mutator registered for path `a`. -/
def mutatorStore : Store :=
  { heap := [emptyObj], data := .ref 0, _isTraversable := true,
    _pathData := [("a", deleteRewriteMut)] }

/-- C7 counterexample: with the DELETE-rewriting mutator on path `a`,
`assign("a", 1)` followed by `delete("a")` leaves `has("a")` true — the
mutator transforms the DELETE sentinel into an ordinary write. -/
theorem deletion_roundtrip_mutator_cex :
    (has (delete (assign mutatorStore "a" (.num 1)) ["a"]) false "a").2 = true := by
  decide

/-- `delete [P]` on a store whose path-data entry for `P` is clean makes
the subsequent walk of `P`'s tokens fail, whatever the store holds at
`P`. -/
theorem delete_single_clean (s2 : Store) (P : String) (pd : PathData)
    (hlk : lookupPD s2._pathData P = some pd) (hmut : pd.mutate = none)
    (htne : pd.tokens ≠ []) (hInv2 : Inv s2) :
    (pureWalk (delete s2 [P]).heap (delete s2 [P]).data
      (tokensOf (delete s2 [P]) (some P))).2 = false := by
  by_cases hflag2 : s2._isTraversable = true
  · have hd : delete s2 [P]
        = _watchChanges
          (fun st => [P].foldl (fun a p => _setAtPath a p deleteV) st) s2 := by
      unfold delete
      rw [if_pos hflag2]
    have hwc2 := watchChanges_parts
      (fun st => [P].foldl (fun a p => _setAtPath a p deleteV) st) s2
    have hlk3 : lookupPD
        { s2 with opCount := s2.opCount + 1 }._pathData P = some pd := hlk
    have hgpd := getPathData_found hlk3
    have hcore : _setAtPathCore
          { s2 with opCount := s2.opCount + 1 } P deleteV
        = _setAtPathVal { s2 with opCount := s2.opCount + 1 }
          pd.tokens deleteV := by
      unfold _setAtPathCore
      simp only []
      rw [hgpd]
      dsimp only
      rw [hmut]
      dsimp only
      rw [ite_self]
    have hInvst2 : Inv { s2 with opCount := s2.opCount + 1 } :=
      Inv_of_fields rfl rfl rfl hInv2
    have hflagst2 : { s2 with
        opCount := s2.opCount + 1 }._isTraversable = true := hflag2
    have hdel := setAtPathVal_delete_walk
      { s2 with opCount := s2.opCount + 1 } pd.tokens htne hInvst2 hflagst2
    have hinner2 : _setAtPath { s2 with opCount := s2.opCount + 1 } P deleteV
        = (_setAtPathVal { s2 with opCount := s2.opCount + 1 }
            pd.tokens deleteV).1 := by
      unfold _setAtPath
      rw [hcore]
    have hs3pd : (delete s2 [P])._pathData = s2._pathData := by
      rw [hd, hwc2.2.2.1]
      simp only [List.foldl_cons, List.foldl_nil]
      rw [hinner2, hdel.2]
    have htksOf : tokensOf (delete s2 [P]) (some P) = pd.tokens := by
      simp only [tokensOf, hs3pd, hlk]
    rw [htksOf]
    have hh : (delete s2 [P]).heap
        = (_setAtPathVal { s2 with opCount := s2.opCount + 1 }
            pd.tokens deleteV).1.heap := by
      rw [hd, hwc2.1]
      simp only [List.foldl_cons, List.foldl_nil]
      rw [hinner2]
    have hdta : (delete s2 [P]).data
        = (_setAtPathVal { s2 with opCount := s2.opCount + 1 }
            pd.tokens deleteV).1.data := by
      rw [hd, hwc2.2.1]
      simp only [List.foldl_cons, List.foldl_nil]
      rw [hinner2]
    rw [hh, hdta]
    exact hdel.1
  · have hflag2f : s2._isTraversable = false := by
      cases hb : s2._isTraversable
      · rfl
      · exact absurd hb hflag2
    have hd : delete s2 [P] = s2 := by
      unfold delete
      rw [if_neg hflag2]
    rw [hd]
    have htksOf : tokensOf s2 (some P) = pd.tokens := by
      simp only [tokensOf, hlk]
    rw [htksOf]
    apply pureWalk_nontrav _ _ _ htne
    rw [← hInv2]
    exact hflag2f

/-- C7 (amended): the round-trip holds for every path with clean path data
(no registered mutator and well-formed cached tokens) on a store whose
traversability cache is correct: `assign(P, V)` then `delete(P)` makes
`has(P)` false and `get(P)` undefined, for every value V, tracked or not.
The unrestricted claim fails when a mutator rewrites the DELETE
sentinel. -/
theorem deletion_roundtrip (s : Store) (P : String) (V : Val) (tracked : Bool)
    (hclean : cleanPathDataB s P = true) (hInv : Inv s) :
    (has (delete (assign s P V) [P]) tracked P).2 = false ∧
    (get (delete (assign s P V) [P]) tracked (some P)).2 = .undef := by
  have ha : assign s P V = _watchChanges (fun st => _setAtPath st P V) s := rfl
  have hwc1 := watchChanges_parts (fun st => _setAtPath st P V) s
  have hclean1 : cleanPathDataB { s with opCount := s.opCount + 1 } P = true :=
    hclean
  obtain ⟨pd, hent, hmut, htne, hret⟩ :=
    getPathData_clean_entry { s with opCount := s.opCount + 1 } P hclean1
  have hs2pd : (assign s P V)._pathData
      = (_getPathData { s with opCount := s.opCount + 1 } P).1._pathData := by
    rw [ha, hwc1.2.2.1]
    exact setAtPathVal_pathData _ _ _
  have hInv2 : Inv (assign s P V) := by
    rw [ha]
    exact Inv_watchChanges _ s (fun st h => Inv_setAtPath st P V h) hInv
  have hlk2 : lookupPD (assign s P V)._pathData P = some pd := by
    rw [hs2pd]
    exact hent
  have hmain := delete_single_clean (assign s P V) P pd hlk2 hmut htne hInv2
  constructor
  · rw [has_val]
    exact hmain
  · rw [get_val]
    exact pureWalk_false_undef _ _ _ hmain

/-- C7 witness: on a plain store (no mutators), assigning 7 at `a.b` and
deleting `a.b` leaves `has` false and `get` undefined. -/
theorem deletion_roundtrip_witness :
    cleanPathDataB exampleStore "a.b" = true ∧ Inv exampleStore ∧
    ((has (delete (assign exampleStore "a.b" (.num 7)) ["a.b"]) false "a.b").2
        = false ∧
      (get (delete (assign exampleStore "a.b" (.num 7)) ["a.b"]) false
          (some "a.b")).2 = .undef) :=
  ⟨rfl, rfl, deletion_roundtrip exampleStore "a.b" (.num 7) false rfl rfl⟩

end RStore

namespace RStore

theorem lookupField_setF_self : ∀ (fl : List (String × Val)) (t : String) (v : Val),
    lookupField (setF fl t v) t = some v := by
  intro fl
  induction fl with
  | nil =>
    intro t v
    show (if t = t then some v else lookupField [] t) = some v
    rw [if_pos rfl]
  | cons e rest ih =>
    intro t v
    obtain ⟨k, w⟩ := e
    unfold setF
    by_cases hk : k = t
    · rw [if_pos hk]
      show (if k = t then some v else lookupField rest t) = some v
      rw [if_pos hk]
    · rw [if_neg hk]
      show (if k = t then some w else lookupField (setF rest t v) t) = some v
      rw [if_neg hk]
      exact ih t v

theorem lookupField_setF_other : ∀ (fl : List (String × Val)) (t t' : String) (v : Val),
    t' ≠ t → lookupField (setF fl t v) t' = lookupField fl t' := by
  intro fl
  induction fl with
  | nil =>
    intro t t' v hne
    show (if t = t' then some v else lookupField [] t') = lookupField [] t'
    rw [if_neg (fun he => hne he.symm)]
  | cons e rest ih =>
    intro t t' v hne
    obtain ⟨k, w⟩ := e
    unfold setF
    by_cases hk : k = t
    · rw [if_pos hk]
      show (if k = t' then some v else lookupField rest t') = _
      rw [if_neg (by rw [hk]; exact fun he => hne he.symm)]
      show _ = (if k = t' then some w else lookupField rest t')
      rw [if_neg (by rw [hk]; exact fun he => hne he.symm)]
    · rw [if_neg hk]
      show (if k = t' then some w else lookupField (setF rest t v) t') = _
      by_cases hk2 : k = t'
      · rw [if_pos hk2]
        show _ = (if k = t' then some w else lookupField rest t')
        rw [if_pos hk2]
      · rw [if_neg hk2]
        show _ = (if k = t' then some w else lookupField rest t')
        rw [if_neg hk2]
        exact ih t t' v hne

theorem trav_ref_lookup {h : Heap} {r : Nat} (ht : isTraversableB h (.ref r) = true) :
    ∃ o, h[r]? = some o := by
  cases hl : h[r]? with
  | some o => exact ⟨o, rfl⟩
  | none =>
    rw [isTraversableB_ref, hl] at ht
    exact absurd ht (by simp)

theorem setField_objRead_self {h : Heap} {r : Nat} {o : Obj} (hl : h[r]? = some o)
    (t : String) (v : Val) : objRead (setField h r t v) r t = v := by
  have hr : r < h.length := (List.getElem?_eq_some.mp hl).1
  unfold setField objRead
  rw [hl]
  simp only []
  rw [List.getElem?_set_self hr]
  simp only []
  rw [lookupField_setF_self]
  rfl

theorem setField_enumF_self {h : Heap} {r : Nat} {o : Obj} (hl : h[r]? = some o)
    (t : String) (v : Val) : enumF (setField h r t v) r t = true := by
  have hr : r < h.length := (List.getElem?_eq_some.mp hl).1
  unfold setField enumF
  rw [hl]
  simp only []
  rw [List.getElem?_set_self hr]
  simp only []
  rw [lookupField_setF_self]
  rfl

theorem setField_agree {h : Heap} {r : Nat} {t : String} {r' : Nat} {t' : String}
    (hne : ¬(r' = r ∧ t' = t)) (v : Val) :
    objRead (setField h r t v) r' t' = objRead h r' t' ∧
    enumF (setField h r t v) r' t' = enumF h r' t' := by
  unfold setField
  cases hl : h[r]? with
  | none => exact ⟨rfl, rfl⟩
  | some o =>
    have hr : r < h.length := (List.getElem?_eq_some.mp hl).1
    by_cases hrr : r' = r
    · subst hrr
      have ht : t' ≠ t := fun he => hne ⟨rfl, he⟩
      unfold objRead enumF
      rw [List.getElem?_set_self hr, hl]
      simp only []
      constructor
      · rw [lookupField_setF_other o.fields t t' v ht]
      · rw [lookupField_setF_other o.fields t t' v ht]
    · unfold objRead enumF
      rw [List.getElem?_set_ne (fun he => hrr he.symm)]
      exact ⟨rfl, rfl⟩

theorem objRead_append_empty (h : Heap) (o2 : Obj) (ho : o2.fields = [])
    (a : Nat) (b : String) : objRead (h ++ [o2]) a b = objRead h a b := by
  unfold objRead
  by_cases ha : a < h.length
  · rw [List.getElem?_append, if_pos ha]
  · have h1 : h[a]? = none := List.getElem?_eq_none (Nat.le_of_not_lt ha)
    rw [h1]
    by_cases ha2 : a = h.length
    · subst ha2
      rw [List.getElem?_concat_length]
      simp [ho, lookupField]
    · have h2 : (h ++ [o2])[a]? = none := by
        apply List.getElem?_eq_none
        simp
        omega
      rw [h2]

theorem walkParents_false_reads : ∀ (ps : List String) (h : Heap) (r0 : Nat)
    (out : Heap × Nat × List (Nat × String)),
    walkParents h r0 false ps = some out →
    ∀ a b, ¬((a, b) ∈ out.2.2) → objRead out.1 a b = objRead h a b := by
  intro ps
  induction ps with
  | nil =>
    intro h r0 out hw a b _
    unfold walkParents at hw
    cases hw
    rfl
  | cons t ps' ih =>
    intro h r0 out hw a b hab
    rw [walkParents] at hw
    cases htr : travRef h (objRead h r0 t) with
    | some r2 =>
      rw [htr] at hw
      simp only [] at hw
      cases hw2 : walkParents h r2 false ps' with
      | none => rw [hw2] at hw; simp at hw
      | some q =>
        rw [hw2] at hw
        simp only [Option.map] at hw
        have hq := Option.some.inj hw
        have hq1 : q.1 = out.1 := congrArg (fun x => x.1) hq
        have hq3 : (r0, t) :: q.2.2 = out.2.2 := congrArg (fun x => x.2.2) hq
        have hab' : ¬((a, b) ∈ q.2.2) := by
          intro hm
          exact hab (by rw [← hq3]; exact List.mem_cons_of_mem _ hm)
        rw [← hq1]
        exact ih h r2 q hw2 a b hab'
    | none =>
      rw [htr] at hw
      simp only [allocObj] at hw
      cases hw2 : walkParents (setField (h ++ [emptyObj]) r0 t (.ref h.length))
          h.length false ps' with
      | none => rw [hw2] at hw; simp at hw
      | some q =>
        rw [hw2] at hw
        simp only [Option.map] at hw
        have hq := Option.some.inj hw
        have hq1 : q.1 = out.1 := congrArg (fun x => x.1) hq
        have hq3 : (r0, t) :: q.2.2 = out.2.2 := congrArg (fun x => x.2.2) hq
        have hab' : ¬((a, b) ∈ q.2.2) := by
          intro hm
          exact hab (by rw [← hq3]; exact List.mem_cons_of_mem _ hm)
        have habh : ¬(a = r0 ∧ b = t) := by
          intro he
          exact hab (by rw [← hq3, he.1, he.2]; exact List.mem_cons_self _ _)
        rw [← hq1]
        rw [ih _ _ q hw2 a b hab']
        rw [(setField_agree habh (.ref h.length)).1]
        exact objRead_append_empty h emptyObj rfl a b

end RStore

namespace RStore

theorem fresh_trav (h : Heap) (r0 : Nat) (t : String) (hr : r0 < h.length) :
    isTraversableB (setField (h ++ [emptyObj]) r0 t (.ref h.length))
      (.ref h.length) = true := by
  rw [isTraversableB_ref, fresh_after_set h r0 t hr]
  rfl

theorem pureWalk_after_set : ∀ (parents : List String) (h : Heap) (r : Nat)
    (h1 : Heap) (pRef : Nat) (es : List (Nat × String)) (v : Val) (lastT : String),
    isTraversableB h (.ref r) = true →
    walkParents h r false parents = some (h1, pRef, es) →
    (es ++ [(pRef, lastT)]).Nodup →
    pureWalk (setField h1 pRef lastT v) (.ref r) (parents ++ [lastT])
      = (v, true) := by
  intro parents
  induction parents with
  | nil =>
    intro h r h1 pRef es v lastT htrav hw _
    unfold walkParents at hw
    have hq := Option.some.inj hw
    simp only [Prod.mk.injEq] at hq
    obtain ⟨hq1, hq2, hq3⟩ := hq
    rw [← hq1, ← hq2]
    simp only [List.nil_append]
    obtain ⟨o, hl⟩ := trav_ref_lookup htrav
    unfold pureWalk
    rw [if_pos (by
      rw [isTrav_setField, htrav]
      simpa [enumVal] using setField_enumF_self hl lastT v)]
    have hv : readVal (setField h r lastT v) (.ref r) lastT = v := by
      show objRead (setField h r lastT v) r lastT = v
      exact setField_objRead_self hl lastT v
    rw [hv]
    rfl
  | cons t parents' ih =>
    intro t0h r h1 pRef es v lastT htrav hw hnd
    rw [walkParents] at hw
    cases htr : travRef t0h (objRead t0h r t) with
    | some r2 =>
      rw [htr] at hw
      simp only [] at hw
      cases hw2 : walkParents t0h r2 false parents' with
      | none => rw [hw2] at hw; simp at hw
      | some q =>
        obtain ⟨qh, qp, qes⟩ := q
        rw [hw2] at hw
        simp only [Option.map] at hw
        have hq := Option.some.inj hw
        simp only [Prod.mk.injEq] at hq
        obtain ⟨hq1, hq2, hq3⟩ := hq
        rw [← hq1, ← hq2]
        rw [← hq3, ← hq2, List.cons_append] at hnd
        have hhead : ¬((r, t) ∈ qes ++ [(qp, lastT)]) := (List.nodup_cons.mp hnd).1
        have hnd' : (qes ++ [(qp, lastT)]).Nodup := (List.nodup_cons.mp hnd).2
        obtain ⟨hread, htrav2⟩ := travRef_some htr
        have htrav1 : isTraversableB qh (.ref r) = true := walkParents_trav hw2 htrav
        have hpres : objRead qh r t = objRead t0h r t :=
          walkParents_false_reads parents' t0h r2 (qh, qp, qes) hw2 r t
            (fun hm => hhead (List.mem_append_left _ hm))
        have hne1 : ¬(r = qp ∧ t = lastT) := fun he =>
          hhead (List.mem_append_right _ (by rw [he.1, he.2]; simp))
        have hag := @setField_agree qh qp lastT r t hne1 v
        show pureWalk (setField qh qp lastT v) (.ref r) (t :: (parents' ++ [lastT]))
          = (v, true)
        unfold pureWalk
        rw [if_pos (by
          rw [isTrav_setField, htrav1]
          have he2 : enumF (setField qh qp lastT v) r t = true := by
            rw [hag.2]
            exact enumF_true_of_objRead (by
              rw [hpres, hread]
              exact fun he => Val.noConfusion he)
          simpa [enumVal] using he2)]
        have hrv : readVal (setField qh qp lastT v) (.ref r) t = .ref r2 := by
          show objRead (setField qh qp lastT v) r t = .ref r2
          rw [hag.1, hpres, hread]
        rw [hrv]
        exact ih t0h r2 qh qp qes v lastT htrav2 hw2 hnd'
    | none =>
      rw [htr] at hw
      simp only [allocObj] at hw
      cases hw2 : walkParents (setField (t0h ++ [emptyObj]) r t (.ref t0h.length))
          t0h.length false parents' with
      | none => rw [hw2] at hw; simp at hw
      | some q =>
        obtain ⟨qh, qp, qes⟩ := q
        rw [hw2] at hw
        simp only [Option.map] at hw
        have hq := Option.some.inj hw
        simp only [Prod.mk.injEq] at hq
        obtain ⟨hq1, hq2, hq3⟩ := hq
        rw [← hq1, ← hq2]
        rw [← hq3, ← hq2, List.cons_append] at hnd
        have hhead : ¬((r, t) ∈ qes ++ [(qp, lastT)]) := (List.nodup_cons.mp hnd).1
        have hnd' : (qes ++ [(qp, lastT)]).Nodup := (List.nodup_cons.mp hnd).2
        have hlt : r < t0h.length := trav_ref_lt htrav
        obtain ⟨o, hl⟩ := trav_ref_lookup htrav
        have hl2 : (t0h ++ [emptyObj])[r]? = some o := by
          rw [List.getElem?_append, if_pos hlt]
          exact hl
        have hfrom : isTraversableB
            (setField (t0h ++ [emptyObj]) r t (.ref t0h.length))
            (.ref t0h.length) = true := fresh_trav t0h r t hlt
        have htrav1 : isTraversableB qh (.ref r) = true :=
          walkParents_trav hw2 (by
            rw [isTrav_setField]
            exact isTrav_append_of_true _ htrav)
        have hpres : objRead qh r t
            = objRead (setField (t0h ++ [emptyObj]) r t (.ref t0h.length)) r t :=
          walkParents_false_reads parents' _ t0h.length (qh, qp, qes) hw2 r t
            (fun hm => hhead (List.mem_append_left _ hm))
        have hselfread : objRead (setField (t0h ++ [emptyObj]) r t (.ref t0h.length)) r t
            = .ref t0h.length := setField_objRead_self hl2 t (.ref t0h.length)
        have hne1 : ¬(r = qp ∧ t = lastT) := fun he =>
          hhead (List.mem_append_right _ (by rw [he.1, he.2]; simp))
        have hag := @setField_agree qh qp lastT r t hne1 v
        show pureWalk (setField qh qp lastT v) (.ref r) (t :: (parents' ++ [lastT]))
          = (v, true)
        unfold pureWalk
        rw [if_pos (by
          rw [isTrav_setField, htrav1]
          have he2 : enumF (setField qh qp lastT v) r t = true := by
            rw [hag.2]
            exact enumF_true_of_objRead (by
              rw [hpres, hselfread]
              exact fun he => Val.noConfusion he)
          simpa [enumVal] using he2)]
        have hrv : readVal (setField qh qp lastT v) (.ref r) t = .ref t0h.length := by
          show objRead (setField qh qp lastT v) r t = .ref t0h.length
          rw [hag.1, hpres, hselfread]
        rw [hrv]
        exact ih (setField (t0h ++ [emptyObj]) r t (.ref t0h.length)) t0h.length
          qh qp qes v lastT hfrom hw2 hnd'

end RStore

namespace RStore

theorem setAtPathVal_writes (st : Store) (tks parents : List String)
    (lastT : String) (v : Val) (rRoot : Nat) (h1 : Heap) (pRef : Nat)
    (es : List (Nat × String))
    (hvc : v ≠ cancelV) (hvd : v ≠ deleteV)
    (hflag : st._isTraversable = true) (hdata : st.data = .ref rRoot)
    (hInv : Inv st)
    (hsl : splitLast tks = some (parents, lastT))
    (hw : walkParents st.heap rRoot false parents = some (h1, pRef, es))
    (hnd : (es ++ [(pRef, lastT)]).Nodup) :
    pureWalk (_setAtPathVal st tks v).1.heap (_setAtPathVal st tks v).1.data tks
      = (v, true) ∧
    (_setAtPathVal st tks v).1._pathData = st._pathData := by
  have htrav : isTraversableB st.heap st.data = true := by
    rw [← hInv]; exact hflag
  have htravR : isTraversableB st.heap (.ref rRoot) = true := by
    rw [← hdata]; exact htrav
  have htok : tks = parents ++ [lastT] := splitLast_append hsl
  have hdv : decide (v = deleteV) = false := decide_eq_false hvd
  unfold _setAtPathVal
  simp only []
  rw [if_neg hvc]
  simp only [hflag, if_true, hdata, hsl, hdv, hw]
  rw [if_neg hvd]
  split
  · constructor
    · show pureWalk (setField h1 pRef lastT v) (Val.ref rRoot) tks = (v, true)
      rw [htok]
      exact pureWalk_after_set parents st.heap rRoot h1 pRef es v lastT htravR hw hnd
    · trivial
  · constructor
    · show pureWalk (setField h1 pRef lastT v) (Val.ref rRoot) tks = (v, true)
      rw [htok]
      exact pureWalk_after_set parents st.heap rRoot h1 pRef es v lastT htravR hw hnd
    · trivial

end RStore

namespace RStore

theorem getPathData_flag (s : Store) (p : String) :
    (_getPathData s p).1._isTraversable = s._isTraversable := by
  unfold _getPathData
  cases hl : lookupPD s._pathData p
  · rfl
  · rfl

theorem setAtPathVal_coerce_step (st : Store) (tks : List String) (v : Val)
    (hvc : v ≠ cancelV) (hvd : v ≠ deleteV)
    (hflag : st._isTraversable = false) :
    _setAtPathVal st tks v = _setAtPathVal (coerceRoot st) tks v := by
  have hcf : (coerceRoot st)._isTraversable = true := rfl
  unfold _setAtPathVal
  simp only []
  rw [if_neg hvc, if_neg hvc]
  simp only [hflag, Bool.false_eq_true, if_false, hcf, eq_self_iff_true, if_true]
  rw [if_neg hvd]
  rfl

end RStore

namespace RStore

theorem getPathData_snd_congr (s t : Store) (p : String)
    (h : s._pathData = t._pathData) :
    (_getPathData s p).2 = (_getPathData t p).2 := by
  unfold _getPathData
  rw [h]
  cases hl : lookupPD t._pathData p
  · rfl
  · rfl

/-- C1 counterexample: assigning the DELETE sentinel is an unset, so a
subsequent `get` returns `undefined`, not the sentinel value that was
passed — `get` after `assign` does not return V for V = DELETE. -/
theorem assign_get_delete_cex :
    (get (assign exampleStore "a" deleteV) false (some "a")).2 ≠ deleteV := by
  decide

/-- C1 (amended): on a store with a correct traversability cache, for a
path P with clean path data (no mutator, well-formed cached tokens) whose
write walk touches no `(object, key)` edge twice (no aliasing of the final
edge), `assign(P, v)` followed by `get(P)` returns exactly `v` for every
`v` other than the DELETE and CANCEL sentinels; and `assign(P, CANCEL)` is
skipped, leaving `get(P)` unchanged. -/
theorem assign_get_roundtrip (s : Store) (P : String) (v : Val) (tracked : Bool)
    (hclean : cleanPathDataB s P = true) (hInv : Inv s)
    (hvc : v ≠ cancelV) (hvd : v ≠ deleteV)
    (hchain : (assignChainOf s P).Nodup) :
    (get (assign s P v) tracked (some P)).2 = v ∧
    (get (assign s P cancelV) tracked (some P)).2
      = (get s tracked (some P)).2 := by
  have hclean1 : cleanPathDataB { s with opCount := s.opCount + 1 } P = true :=
    hclean
  obtain ⟨pd, hent, hmut, htne, hret⟩ :=
    getPathData_clean_entry { s with opCount := s.opCount + 1 } P hclean1
  have hparts := getPathData_parts { s with opCount := s.opCount + 1 } P
  have hXheap : (_getPathData { s with opCount := s.opCount + 1 } P).1.heap
      = s.heap := hparts.1
  have hXdata : (_getPathData { s with opCount := s.opCount + 1 } P).1.data
      = s.data := hparts.2.1
  have hXflag : (_getPathData { s with opCount := s.opCount + 1 } P).1._isTraversable
      = s._isTraversable :=
    getPathData_flag { s with opCount := s.opCount + 1 } P
  have hXInv : Inv (_getPathData { s with opCount := s.opCount + 1 } P).1 :=
    Inv_getPathData P (Inv_of_fields rfl rfl rfl hInv)
  have hret' : (_getPathData s P).2 = pd :=
    (getPathData_snd_congr s { s with opCount := s.opCount + 1 } P rfl).trans hret
  have htksS : tokensOf s (some P) = pd.tokens := by
    rw [← getPathData_tokens s P, hret']
  have hcoreGen : ∀ w : Val,
      _setAtPathCore { s with opCount := s.opCount + 1 } P w
      = _setAtPathVal (_getPathData { s with opCount := s.opCount + 1 } P).1
          pd.tokens w := by
    intro w
    unfold _setAtPathCore
    simp only []
    rw [hret, hmut]
    dsimp only
    rw [ite_self]
  constructor
  · have hwc := watchChanges_parts (fun st => _setAtPath st P v) s
    have hinner : _setAtPath { s with opCount := s.opCount + 1 } P v
        = (_setAtPathVal (_getPathData { s with opCount := s.opCount + 1 } P).1
            pd.tokens v).1 := by
      unfold _setAtPath
      rw [hcoreGen v]
    have hs2heap : (assign s P v).heap
        = (_setAtPathVal (_getPathData { s with opCount := s.opCount + 1 } P).1
            pd.tokens v).1.heap := by
      rw [show assign s P v
          = _watchChanges (fun st => _setAtPath st P v) s from rfl, hwc.1, hinner]
    have hs2data : (assign s P v).data
        = (_setAtPathVal (_getPathData { s with opCount := s.opCount + 1 } P).1
            pd.tokens v).1.data := by
      rw [show assign s P v
          = _watchChanges (fun st => _setAtPath st P v) s from rfl, hwc.2.1, hinner]
    have hs2pd : (assign s P v)._pathData
        = (_getPathData { s with opCount := s.opCount + 1 } P).1._pathData := by
      rw [show assign s P v
          = _watchChanges (fun st => _setAtPath st P v) s from rfl, hwc.2.2.1,
        hinner]
      exact setAtPathVal_pathData _ _ _
    have htks2 : tokensOf (assign s P v) (some P) = pd.tokens := by
      simp only [tokensOf, hs2pd, hent]
    rw [get_val, htks2, hs2heap, hs2data]
    obtain ⟨parents, lastT, hsl⟩ := splitLast_isSome pd.tokens htne
    by_cases hflagS : s._isTraversable = true
    · have htrav : isTraversableB s.heap s.data = true := by
        rw [← hInv]; exact hflagS
      obtain ⟨rRoot, hdata⟩ := trav_is_ref htrav
      obtain ⟨out, hw0⟩ := Option.isSome_iff_exists.mp
        (walkParents_false_isSome parents s.heap rRoot)
      obtain ⟨h1, pRef, es⟩ := out
      have hchain2 : (es ++ [(pRef, lastT)]).Nodup := by
        unfold assignChainOf at hchain
        simp only [hret', hflagS, if_true, hdata, hsl, hw0] at hchain
        exact hchain
      have hcore := setAtPathVal_writes
        (_getPathData { s with opCount := s.opCount + 1 } P).1
        pd.tokens parents lastT v rRoot h1 pRef es hvc hvd
        (by rw [hXflag]; exact hflagS)
        (by rw [hXdata]; exact hdata)
        hXInv hsl
        (by rw [hXheap]; exact hw0)
        hchain2
      rw [hcore.1]
    · have hflagSf : s._isTraversable = false := by
        cases hb : s._isTraversable
        · rfl
        · exact absurd hb hflagS
      have hco : _setAtPathVal
            (_getPathData { s with opCount := s.opCount + 1 } P).1 pd.tokens v
          = _setAtPathVal
            (coerceRoot (_getPathData { s with opCount := s.opCount + 1 } P).1)
            pd.tokens v :=
        setAtPathVal_coerce_step _ pd.tokens v hvc hvd
          (by rw [hXflag]; exact hflagSf)
      obtain ⟨out, hw0⟩ := Option.isSome_iff_exists.mp
        (walkParents_false_isSome parents (s.heap ++ [emptyObj]) s.heap.length)
      obtain ⟨h1, pRef, es⟩ := out
      have hchain2 : (es ++ [(pRef, lastT)]).Nodup := by
        unfold assignChainOf at hchain
        simp only [hret', hflagSf, Bool.false_eq_true, if_false, coerceRoot,
          allocObj, hsl, hw0] at hchain
        exact hchain
      have hcoheap : (coerceRoot
            (_getPathData { s with opCount := s.opCount + 1 } P).1).heap
          = s.heap ++ [emptyObj] := by
        show (_getPathData { s with opCount := s.opCount + 1 } P).1.heap
            ++ [emptyObj] = s.heap ++ [emptyObj]
        rw [hXheap]
      have hcodata : (coerceRoot
            (_getPathData { s with opCount := s.opCount + 1 } P).1).data
          = .ref (s.heap.length) := by
        show Val.ref
            (_getPathData { s with opCount := s.opCount + 1 } P).1.heap.length
          = Val.ref s.heap.length
        rw [hXheap]
      have hw1 : walkParents (coerceRoot
            (_getPathData { s with opCount := s.opCount + 1 } P).1).heap
          s.heap.length false parents = some (h1, pRef, es) := by
        rw [hcoheap]
        exact hw0
      have hcore := setAtPathVal_writes
        (coerceRoot (_getPathData { s with opCount := s.opCount + 1 } P).1)
        pd.tokens parents lastT v s.heap.length h1 pRef es hvc hvd rfl hcodata
        (Inv_coerceRoot _) hsl hw1 hchain2
      rw [hco, hcore.1]
  · have hwc := watchChanges_parts (fun st => _setAtPath st P cancelV) s
    have hcancel : _setAtPathVal
          (_getPathData { s with opCount := s.opCount + 1 } P).1 pd.tokens cancelV
        = ((_getPathData { s with opCount := s.opCount + 1 } P).1, false) := by
      unfold _setAtPathVal
      rw [if_pos rfl]
    have hinner : _setAtPath { s with opCount := s.opCount + 1 } P cancelV
        = (_getPathData { s with opCount := s.opCount + 1 } P).1 := by
      unfold _setAtPath
      rw [hcoreGen cancelV, hcancel]
    have hsheap : (assign s P cancelV).heap = s.heap := by
      rw [show assign s P cancelV
          = _watchChanges (fun st => _setAtPath st P cancelV) s from rfl,
        hwc.1, hinner, hXheap]
    have hsdata : (assign s P cancelV).data = s.data := by
      rw [show assign s P cancelV
          = _watchChanges (fun st => _setAtPath st P cancelV) s from rfl,
        hwc.2.1, hinner, hXdata]
    have hspd : (assign s P cancelV)._pathData
        = (_getPathData { s with opCount := s.opCount + 1 } P).1._pathData := by
      rw [show assign s P cancelV
          = _watchChanges (fun st => _setAtPath st P cancelV) s from rfl,
        hwc.2.2.1, hinner]
    have htksC : tokensOf (assign s P cancelV) (some P) = pd.tokens := by
      simp only [tokensOf, hspd, hent]
    rw [get_val, get_val, htksC, hsheap, hsdata, htksS]

/-- C1 witness: on the example store, `assign "a.b" 7` then
`get "a.b"` yields 7, and an `assign` of CANCEL leaves `get` unchanged. -/
theorem assign_get_roundtrip_witness :
    (get (assign exampleStore "a.b" (.num 7)) false (some "a.b")).2 = .num 7 ∧
    (get (assign exampleStore "a.b" cancelV) false (some "a.b")).2
      = (get exampleStore false (some "a.b")).2 :=
  assign_get_roundtrip exampleStore "a.b" (.num 7) false rfl rfl
    (by decide) (by decide) (by decide)

end RStore
